import Mathlib

/-!
# nsh: a shallow embedding of `nsh.c`

The shell keeps a linked list of background jobs, reaps children from a
`SIGCHLD` handler, splits a command line on `|` into stages, tokenises every
stage on blanks and runs the stages as a pipeline of child processes.

Conventions of the embedding

* A C string is the list of its bytes before the terminating NUL (`CStr`).
* The singly linked `job_list` is a `List job` (head of the list first).
* `pid_t` is `Int`.
* System calls whose outcome the program cannot decide (`pipe`, `fork`,
  `open`) are answered by a `Sys` record; the calls the parent makes are
  recorded, in order, in a trace of `Event`s.
* A descriptor table is an association list from descriptor numbers to the
  open file they name.
-/

set_option maxRecDepth 100000

namespace Nsh

/-- A C string: the bytes before the terminating NUL. -/
abbrev CStr := List Char

/-- The constant `MAX_LINE`, 1024. -/
def MAX_LINE : Nat := 1024
/-- The constant `MAX_ARGS`, 128. -/
def MAX_ARGS : Nat := 128
/-- The constant `MAX_CMDS`, 64. -/
def MAX_CMDS : Nat := 64

/-! ## Job table -/

/-- The record `struct job` without its `next` pointer: the list structure carries it. -/
structure job where
  pid : Int
  command : CStr
  deriving DecidableEq, Repr

/-- The function `add_job`: the new node becomes the head of `job_list`. -/
def add_job (pid : Int) (command : CStr) (job_list : List job) : List job :=
  { pid := pid, command := command } :: job_list

/-- The function `remove_job`: walk the list, unlink the first node whose pid matches and
return at once; a list without such a node is left as it is. -/
def remove_job (pid : Int) : List job → List job
  | [] => []
  | j :: rest => if j.pid = pid then rest else j :: remove_job pid rest

/-- The function `print_jobs`: one `[pid] command` line per node, head first. -/
def print_jobs (job_list : List job) : List (Int × CStr) :=
  job_list.map (fun j => (j.pid, j.command))

/-! ## Termination reaper -/

/-- The call `waitpid(-1, &status, WNOHANG)` over a queue of exited children that have
not been collected yet: the next pending pid is returned and leaves the queue;
with nothing pending the call returns a value that is not positive. -/
def waitpid_nohang (pending : List Int) : Int × List Int :=
  match pending with
  | [] => (0, [])
  | p :: rest => (p, rest)

/-- The function `sigchld_handler`: `while ((pid = waitpid(-1, &status, WNOHANG)) > 0)
remove_job(pid);`.  Returns the queue that is left and the job list. -/
def sigchld_handler : List Int → List job → List Int × List job
  | [], job_list => ([], job_list)
  | p :: rest, job_list =>
    if 0 < (waitpid_nohang (p :: rest)).1 then
      sigchld_handler rest (remove_job p job_list)
    else
      (rest, job_list)

/-! ## Tokenising -/

/-- State of `strtok` after a call: the token it returned (`none` for `NULL`)
and the text its saved pointer is left at. -/
structure StrtokResult where
  token : Option CStr
  saved : CStr
  deriving DecidableEq, Repr

/-- One call of `strtok` on the text `s` that is still unscanned: skip leading
delimiters; at the end of the text return `NULL`; else the token runs up to
the next delimiter, which is overwritten with NUL, and scanning resumes
behind it. -/
def strtok (delims : List Char) (s : CStr) : StrtokResult :=
  match s.dropWhile (fun c => delims.contains c) with
  | [] => { token := none, saved := [] }
  | c :: cs =>
    { token := some ((c :: cs).takeWhile (fun x => !delims.contains x)),
      saved := ((c :: cs).dropWhile (fun x => !delims.contains x)).drop 1 }

/-- The loop `while (token != NULL && count < limit) { out[count++] = token;
token = strtok(NULL, delims); }`, with `room = limit - count` slots left. -/
def token_loop (delims : List Char) : Nat → StrtokResult → List CStr
  | 0, _ => []
  | room + 1, r =>
    match r.token with
    | none => []
    | some t => t :: token_loop delims room (strtok delims r.saved)

/-- What `parse_command` leaves behind: the command line as it stands when
the splitting starts, the `commands` array up to its `NULL`, and `*background`. -/
structure Parsed where
  line : CStr
  commands : List CStr
  background : Int
  deriving DecidableEq, Repr

/-- The first `if` of `parse_command`: a trailing newline is overwritten with
NUL.  Reading `cmdline[strlen(cmdline) - 1]` of an empty string is an access
outside the string: `none`. -/
def strip_newline (cmdline : CStr) : Option CStr :=
  match cmdline.getLast? with
  | none => none
  | some c => if c = '\n' then some cmdline.dropLast else some cmdline

/-- The second `if` of `parse_command`: a trailing `&` sets `*background` and
is overwritten with NUL.  The same access outside an empty string: `none`. -/
def strip_background (cmdline : CStr) (background : Int) : Option (CStr × Int) :=
  match cmdline.getLast? with
  | none => none
  | some c => if c = '&' then some (cmdline.dropLast, 1) else some (cmdline, background)

/-- The function `parse_command`; `background` is the value `*background` has on entry. -/
def parse_command (cmdline : CStr) (background : Int) : Option Parsed :=
  match strip_newline cmdline with
  | none => none
  | some l1 =>
    match strip_background l1 background with
    | none => none
    | some (l2, bg) =>
      some { line := l2,
             commands := token_loop ['|'] (MAX_CMDS - 1) (strtok ['|'] l2),
             background := bg }

/-- The function `parse_args`: the `argv` array up to and including its terminating `NULL`
(`none`). -/
def parse_args (command : CStr) : List (Option CStr) :=
  (token_loop [' '] (MAX_ARGS - 1) (strtok [' '] command)).map some ++ [none]

/-! ## Descriptors and the operating system -/

/-- The flags an `open` call of the shell uses: `O_RDONLY`,
`O_WRONLY | O_CREAT | O_TRUNC`, `O_WRONLY | O_CREAT | O_APPEND`. -/
inductive OpenMode where
  | rdonly
  | wr_trunc
  | wr_append
  deriving DecidableEq, Repr

/-- What a descriptor names: something that was open before the call (told
apart by a tag), an end of the `i`-th pipe made by this call, or a file opened
by a child. -/
inductive OpenFile where
  | inherited (tag : Nat)
  | pipe_read (i : Nat)
  | pipe_write (i : Nat)
  | file (path : CStr) (mode : OpenMode)
  deriving DecidableEq, Repr

/-- Descriptor table of one process. -/
abbrev FdTable := List (Nat × OpenFile)

/-- The open file behind descriptor `fd`, `none` when `fd` is not open. -/
def fd_lookup (t : FdTable) (fd : Nat) : Option OpenFile :=
  match t with
  | [] => none
  | e :: rest => if e.1 = fd then some e.2 else fd_lookup rest fd

/-- The call `close(fd)`; closing a descriptor that is not open changes nothing. -/
def fd_close (t : FdTable) (fd : Nat) : FdTable :=
  t.filter (fun e => e.1 ≠ fd)

/-- The call `dup2(oldfd, newfd)`: fails without effect when `oldfd` is not open, does
nothing when both are the same, else `newfd` is silently closed and made to
name what `oldfd` names. -/
def fd_dup2 (t : FdTable) (oldfd newfd : Nat) : FdTable :=
  match fd_lookup t oldfd with
  | none => t
  | some f => if oldfd = newfd then t else (newfd, f) :: fd_close t newfd

/-- Search for an unused descriptor number upwards from `n`. -/
def first_free (t : FdTable) : Nat → Nat → Nat
  | 0, n => n
  | fuel + 1, n => if (fd_lookup t n).isNone then n else first_free t fuel (n + 1)

/-- The lowest descriptor number that is not open: the number `pipe` and
`open` hand out.  Among `0 .. t.length` at least one number is unused. -/
def lowest_free (t : FdTable) : Nat :=
  first_free t t.length 0

/-- Answers of the operating system that the shell cannot decide itself. -/
structure Sys where
  /-- whether the `i`-th `pipe` call of the run succeeds -/
  pipe_ok : Nat → Bool
  /-- the `i`-th `fork` call of the run: the child's pid, or failure -/
  fork_pid : Nat → Option Int
  /-- whether a child's `open` of this path succeeds -/
  open_ok : CStr → OpenMode → Bool

/-- The call `open(path, flags)` in a process with table `t`; `path` is `none` for a
`NULL` pointer, on which `open` fails. -/
def sys_open (sys : Sys) (t : FdTable) (path : Option CStr) (mode : OpenMode) :
    Option (Nat × FdTable) :=
  match path with
  | none => none
  | some p =>
    if sys.open_ok p mode then
      some (lowest_free t, (lowest_free t, OpenFile.file p mode) :: t)
    else none

/-- How a child leaves the code of the shell: it calls `execvp` with this
argument vector and this descriptor table, or it has called
`exit(EXIT_FAILURE)` after an `open` that failed. -/
inductive ChildEnd where
  | exec (argv : List CStr) (fds : FdTable)
  | exit_failure
  deriving DecidableEq, Repr

/-- Which `perror` call. -/
inductive Diag where
  | pipe
  | fork
  deriving DecidableEq, Repr

/-- What the parent does, in program order. -/
inductive Event where
  | print_jobs (lines : List (Int × CStr))
  | perror (d : Diag)
  | pipe (i : Nat) (rd wr : Nat)
  | pipe_failed (i : Nat)
  | fork (i : Nat) (command : CStr) (pid : Int) (child : ChildEnd)
  | fork_failed (i : Nat)
  | close (fd : Nat)
  | wait
  | add_job (pid : Int) (label : CStr)
  | printf_job (pid : Int) (label : CStr)
  deriving DecidableEq, Repr

/-! ## The child branch of `execute_command` -/

/-- The scan `for (j = 0; argv[j] != NULL; j++) if (strcmp(argv[j], "<") == 0)`: the
index of the first `<` before the first `NULL`; the list is `argv + j`. -/
def scan_input : List (Option CStr) → Nat → Option Nat
  | [], _ => none
  | none :: _, _ => none
  | some t :: rest, j => if t = ['<'] then some j else scan_input rest (j + 1)

/-- The scan of the last stage: the index of the first `>` or `>>` before the
first `NULL`, with the mode it asks for. -/
def scan_output : List (Option CStr) → Nat → Option (Nat × OpenMode)
  | [], _ => none
  | none :: _, _ => none
  | some t :: rest, j =>
    if t = ['>'] then some (j, OpenMode.wr_trunc)
    else if t = ['>', '>'] then some (j, OpenMode.wr_append)
    else scan_output rest (j + 1)

/-- Body of a redirection once its operator is found at `argv[j]`:
`fd = open(argv[j + 1], ...)`, on failure `exit(EXIT_FAILURE)` (`none`), else
`dup2(fd, target); close(fd); argv[j] = NULL`. -/
def redirect (sys : Sys) (argv : List (Option CStr)) (t : FdTable) (j : Nat)
    (mode : OpenMode) (target : Nat) : Option (List (Option CStr) × FdTable) :=
  match sys_open sys t (argv.getD (j + 1) none) mode with
  | none => none
  | some (fd, t1) => some (argv.set j none, fd_close (fd_dup2 t1 fd target) fd)

/-- The vector `argv` as `execvp` reads it: up to the first `NULL`. -/
def argv_upto_null : List (Option CStr) → List CStr
  | [] => []
  | none :: _ => []
  | some t :: rest => t :: argv_upto_null rest

/-- The branch `pid == 0` for stage `i` of `num_cmds`, started with the
parent's descriptor table `t`. -/
def child (sys : Sys) (i num_cmds : Nat) (pipefds : List Nat)
    (argv : List (Option CStr)) (t : FdTable) : ChildEnd :=
  -- input redirection if first command
  let s1 : Option (List (Option CStr) × FdTable) :=
    if i = 0 then
      match scan_input argv 0 with
      | none => some (argv, t)
      | some j => redirect sys argv t j OpenMode.rdonly 0
    else some (argv, t)
  match s1 with
  | none => ChildEnd.exit_failure
  | some (argv1, t1) =>
    -- output redirection if last command
    let s2 : Option (List (Option CStr) × FdTable) :=
      if i = num_cmds - 1 then
        match scan_output argv1 0 with
        | none => some (argv1, t1)
        | some (j, mode) => redirect sys argv1 t1 j mode 1
      else some (argv1, t1)
    match s2 with
    | none => ChildEnd.exit_failure
    | some (argv2, t2) =>
      let t3 := if 0 < i then fd_dup2 t2 (pipefds.getD ((i - 1) * 2) 0) 0 else t2
      let t4 := if i < num_cmds - 1 then fd_dup2 t3 (pipefds.getD (i * 2 + 1) 0) 1 else t3
      -- close all pipe file descriptors in child
      ChildEnd.exec (argv_upto_null argv2) (pipefds.foldl fd_close t4)

/-! ## `execute_command` -/

/-- State of the parent after the pipe allocation loop. -/
structure PipeAlloc where
  ok : Bool
  fds : FdTable
  pipefds : List Nat
  trace : List Event
  deriving DecidableEq, Repr

/-- The loop `for (i = 0; i < num_cmds - 1; i++) if (pipe(pipefds + i * 2) < 0)
{ perror("pipe"); free(cmd_copy); return; }` with `todo` calls still to make,
the next being call `i`. -/
def pipe_loop (sys : Sys) : Nat → Nat → FdTable → List Nat → PipeAlloc
  | 0, _, t, pipefds => { ok := true, fds := t, pipefds := pipefds, trace := [] }
  | todo + 1, i, t, pipefds =>
    if sys.pipe_ok i then
      let rd := lowest_free t
      let t1 : FdTable := (rd, OpenFile.pipe_read i) :: t
      let wr := lowest_free t1
      let t2 : FdTable := (wr, OpenFile.pipe_write i) :: t1
      let r := pipe_loop sys todo (i + 1) t2 (pipefds ++ [rd, wr])
      { r with trace := Event.pipe i rd wr :: r.trace }
    else
      { ok := false, fds := t, pipefds := pipefds,
        trace := [Event.pipe_failed i, Event.perror Diag.pipe] }

/-- State of the parent after the spawn loop. -/
structure Spawned where
  ok : Bool
  pid : Int
  trace : List Event
  deriving DecidableEq, Repr

/-- The loop `for (i = 0; i < num_cmds; i++)` over `commands[i ..]`: tokenise
the stage, `fork`; the child runs `child`; the parent returns from
`execute_command` when `fork` failed and goes on otherwise. -/
def spawn_loop (sys : Sys) (num_cmds : Nat) (pipefds : List Nat) (t : FdTable) :
    List CStr → Nat → Int → Spawned
  | [], _, pid => { ok := true, pid := pid, trace := [] }
  | command :: rest, i, _ =>
    let argv := parse_args command
    match sys.fork_pid i with
    | some pid =>
      let r := spawn_loop sys num_cmds pipefds t rest (i + 1) pid
      { r with trace := Event.fork i command pid (child sys i num_cmds pipefds argv t) :: r.trace }
    | none =>
      { ok := false, pid := -1, trace := [Event.fork_failed i, Event.perror Diag.fork] }

/-- The parent when `execute_command` returns. -/
structure Outcome where
  trace : List Event
  fds : FdTable
  job_list : List job
  deriving DecidableEq, Repr

/-- The call `execute_command(cmdline)` run by a parent with descriptor table `t` and
job list `job_list`; `none` when the run reads outside the command line. -/
def execute_command (sys : Sys) (cmdline : CStr) (t : FdTable) (job_list : List job) :
    Option Outcome :=
  let cmd_copy := cmdline
  -- built-in 'jobs' command: strncmp(cmdline, "jobs", 4) == 0
  if cmdline.take 4 = ['j', 'o', 'b', 's'] then
    some { trace := [Event.print_jobs (print_jobs job_list)], fds := t, job_list := job_list }
  else
    match parse_command cmdline 0 with
    | none => none
    | some parsed =>
      let num_cmds := parsed.commands.length
      if num_cmds = 0 then
        some { trace := [], fds := t, job_list := job_list }
      else
        let pa := pipe_loop sys (num_cmds - 1) 0 t []
        if !pa.ok then
          some { trace := pa.trace, fds := pa.fds, job_list := job_list }
        else
          let sp := spawn_loop sys num_cmds pa.pipefds pa.fds parsed.commands 0 0
          if !sp.ok then
            some { trace := pa.trace ++ sp.trace, fds := pa.fds, job_list := job_list }
          else
            -- close all pipe file descriptors in parent
            let closes := pa.pipefds.map Event.close
            let t1 := pa.pipefds.foldl fd_close pa.fds
            if parsed.background ≠ 0 then
              some { trace := pa.trace ++ sp.trace ++ closes ++
                       [Event.add_job sp.pid cmd_copy, Event.printf_job sp.pid cmd_copy],
                     fds := t1, job_list := add_job sp.pid cmd_copy job_list }
            else
              some { trace := pa.trace ++ sp.trace ++ closes ++ List.replicate num_cmds Event.wait,
                     fds := t1, job_list := job_list }

/-! ## Reading a trace -/

/-- Is the event a `fork` call (failed ones included)? -/
def is_fork : Event → Bool
  | Event.fork _ _ _ _ => true
  | Event.fork_failed _ => true
  | _ => false

/-- Is the event a `perror` call? -/
def is_perror : Event → Bool
  | Event.perror _ => true
  | _ => false

/-- The stage a `fork` event spawned a child for. -/
def spawned_stage : Event → Option (Nat × CStr)
  | Event.fork i c _ _ => some (i, c)
  | _ => none

/-- The child a `fork` event spawned. -/
def spawned_child : Event → Option ChildEnd
  | Event.fork _ _ _ c => some c
  | _ => none

/-- Number of `fork` calls in a trace, failed ones included. -/
def fork_calls (tr : List Event) : Nat := tr.countP is_fork

/-- The stages for which a child was spawned, in the order of the forks. -/
def spawned (tr : List Event) : List (Nat × CStr) := tr.filterMap spawned_stage

/-- The children that were spawned, in the order of the forks. -/
def children (tr : List Event) : List ChildEnd := tr.filterMap spawned_child

/-- Number of `wait` calls in a trace. -/
def wait_calls (tr : List Event) : Nat := tr.count Event.wait

/-- Number of `perror` calls in a trace. -/
def perror_calls (tr : List Event) : Nat := tr.countP is_perror

/-- The open file a child has on descriptor `fd` when it calls `execvp`;
`none` when the descriptor is closed or the child never gets there. -/
def child_fd (c : ChildEnd) (fd : Nat) : Option OpenFile :=
  match c with
  | ChildEnd.exec _ t => fd_lookup t fd
  | ChildEnd.exit_failure => none

/-- The open file the child of stage `i` has on descriptor `fd` when it calls
`execvp`, read off the trace of a run in which every `fork` succeeded. -/
def stage_fd (tr : List Event) (i fd : Nat) : Option OpenFile :=
  ((children tr)[i]?).bind (fun c => child_fd c fd)

/-- All answers of the operating system are successes; forked children get
the pids `100, 101, ...`. -/
def sys_ok : Sys :=
  { pipe_ok := fun _ => true, fork_pid := fun i => some (100 + (i : Int)), open_ok := fun _ _ => true }

/-- Like `sys_ok`, except that the `k`-th `fork` call fails. -/
def sys_fork_fails_at (k : Nat) : Sys :=
  { sys_ok with fork_pid := fun i => if i = k then none else some (100 + (i : Int)) }

/-- Like `sys_ok`, except that the `k`-th `pipe` call fails. -/
def sys_pipe_fails_at (k : Nat) : Sys :=
  { sys_ok with pipe_ok := fun i => decide (i ≠ k) }

/-- The shell's descriptors when it starts: standard input, output, error. -/
def std_fds : FdTable :=
  [(0, OpenFile.inherited 0), (1, OpenFile.inherited 1), (2, OpenFile.inherited 2)]

/-! ## Vocabulary of the specification -/

/-- The non-empty pieces of `s` between occurrences of the separator `d`. -/
def fields (d : Char) (s : CStr) : List CStr :=
  (s.splitOn d).filter (fun t => decide (t ≠ []))

/-- The non-empty `|`-separated stages a command line contains. -/
def stages_of (line : CStr) : List CStr := fields '|' line

/-- The command line with its line terminator stripped. -/
def chomp (cmdline : CStr) : CStr :=
  if cmdline.getLast? = some '\n' then cmdline.dropLast else cmdline

/-- The words of the specification for the background marker: the last
non-whitespace token of the line is the lone token `&`. -/
def spec_background_marker (line : CStr) : Bool :=
  ((line.splitOnP Char.isWhitespace).filter (fun t => decide (t ≠ []))).getLast? = some ['&']

/-! ## Invariants and abbreviations used in the proofs -/

/-- What holds of the parent's table `t` and the array `pipefds` when `i`
pipes have been made: the array has `2 * i` entries, entry `2 * k` names the
read end and entry `2 * k + 1` the write end of pipe `k`, no entry is
descriptor 0 or 1, and descriptors 0 and 1 are open. -/
def PipesInv (t : FdTable) (pipefds : List Nat) (i : Nat) : Prop :=
  pipefds.length = 2 * i ∧
  (∀ k, k < i →
    fd_lookup t (pipefds.getD (2 * k) 0) = some (OpenFile.pipe_read k) ∧
    fd_lookup t (pipefds.getD (2 * k + 1) 0) = some (OpenFile.pipe_write k)) ∧
  (∀ fd ∈ pipefds, 2 ≤ fd) ∧
  (fd_lookup t 0).isSome = true ∧ (fd_lookup t 1).isSome = true

/-- Is the event a successful `pipe` call? -/
def is_pipe : Event → Bool
  | Event.pipe _ _ _ => true
  | _ => false

/-- The `fork` event of stage `ic.1` with command text `ic.2`. -/
def fork_event (sys : Sys) (num_cmds : Nat) (pipefds : List Nat) (t : FdTable)
    (ic : Nat × CStr) : Event :=
  Event.fork ic.1 ic.2 ((sys.fork_pid ic.1).getD 0)
    (child sys ic.1 num_cmds pipefds (parse_args ic.2) t)

/-- A stretch of trace without `fork`, `wait` and `perror` calls. -/
def Quiet (tr : List Event) : Prop :=
  fork_calls tr = 0 ∧ wait_calls tr = 0 ∧ perror_calls tr = 0 ∧ spawned tr = [] ∧ children tr = []

/-! ## Job table: proofs -/

theorem remove_job_eq_self (p : Int) (jobs : List job) (h : ∀ j ∈ jobs, j.pid ≠ p) :
    remove_job p jobs = jobs := by
  induction jobs with
  | nil => rfl
  | cons j rest ih =>
    have hj : j.pid ≠ p := h j (List.mem_cons_self _ _)
    have hrest : ∀ x ∈ rest, x.pid ≠ p := fun x hx => h x (List.mem_cons_of_mem _ hx)
    simp [remove_job, hj, ih hrest]

theorem remove_job_eq_filter (p : Int) (jobs : List job) (hnd : (jobs.map job.pid).Nodup) :
    remove_job p jobs = jobs.filter (fun j => decide (j.pid ≠ p)) := by
  induction jobs with
  | nil => rfl
  | cons j rest ih =>
    rw [List.map_cons, List.nodup_cons] at hnd
    by_cases hj : j.pid = p
    · have hrest : ∀ x ∈ rest, x.pid ≠ p := by
        intro x hx hxp
        exact hnd.1 (List.mem_map.mpr ⟨x, hx, by rw [hxp, hj]⟩)
      have hfil : rest.filter (fun j => decide (j.pid ≠ p)) = rest :=
        List.filter_eq_self.mpr (fun x hx => by simpa using hrest x hx)
      rw [remove_job, if_pos hj, List.filter_cons_of_neg (by simp [hj]), hfil]
    · rw [remove_job, if_neg hj, List.filter_cons_of_pos (by simp [hj]), ih hnd.2]

theorem filter_pids_nodup (q : job → Bool) (jobs : List job) (hnd : (jobs.map job.pid).Nodup) :
    ((jobs.filter q).map job.pid).Nodup :=
  ((List.filter_sublist jobs).map job.pid).nodup hnd

theorem sigchld_handler_eq (L : List Int) :
    ∀ jobs : List job, (jobs.map job.pid).Nodup → (∀ p ∈ L, 0 < p) →
      sigchld_handler L jobs = ([], jobs.filter (fun j => decide (j.pid ∉ L))) := by
  induction L with
  | nil => intro jobs _ _; simp [sigchld_handler]
  | cons p rest ih =>
    intro jobs hnd hpos
    have hp : 0 < p := hpos p (List.mem_cons_self _ _)
    have hrest : ∀ q ∈ rest, 0 < q := fun q hq => hpos q (List.mem_cons_of_mem _ hq)
    have hnd1 : ((remove_job p jobs).map job.pid).Nodup := by
      rw [remove_job_eq_filter p jobs hnd]; exact filter_pids_nodup _ jobs hnd
    rw [sigchld_handler]
    simp only [waitpid_nohang, hp, if_true]
    rw [ih (remove_job p jobs) hnd1 hrest, remove_job_eq_filter p jobs hnd, List.filter_filter]
    congr 1
    apply List.filter_congr
    intro j _
    simp only [List.mem_cons, not_or, ne_eq, Bool.decide_and, Bool.and_comm]

/-- C1: in a job table with pairwise distinct pids, `remove_job p` changes
nothing when no entry has pid `p`; when there is one, no entry with pid `p` is
left and the result is the table with exactly the entries of pid `p` filtered
out, so all other entries stay, unchanged and in their order. -/
theorem remove_job_spec (jobs : List job) (p : Int) (hnd : (jobs.map job.pid).Nodup) :
    ((∀ j ∈ jobs, j.pid ≠ p) → remove_job p jobs = jobs) ∧
    ((∃ j ∈ jobs, j.pid = p) →
      (∀ j ∈ remove_job p jobs, j.pid ≠ p) ∧
      (∀ j ∈ jobs, j.pid ≠ p → j ∈ remove_job p jobs) ∧
      remove_job p jobs = jobs.filter (fun j => decide (j.pid ≠ p))) := by
  refine ⟨remove_job_eq_self p jobs, fun _ => ?_⟩
  rw [remove_job_eq_filter p jobs hnd]
  refine ⟨?_, ?_, rfl⟩
  · intro j hj
    simpa using (List.mem_filter.mp hj).2
  · intro j hj hne
    exact List.mem_filter.mpr ⟨hj, by simpa using hne⟩

theorem remove_job_spec_witness :
    ([(7 : Int), 9, 4].Nodup) ∧
    remove_job 9 [⟨7, ['a']⟩, ⟨9, ['b']⟩, ⟨4, ['c']⟩] = [⟨7, ['a']⟩, ⟨4, ['c']⟩] :=
  ⟨by decide,
   ((remove_job_spec [⟨7, ['a']⟩, ⟨9, ['b']⟩, ⟨4, ['c']⟩] 9 (by decide)).2
      ⟨⟨9, ['b']⟩, by decide, rfl⟩).2.2.trans (by decide)⟩

/-- C10: with the non-blocking `waitpid` handing out the pending pids `L` one
by one, a single run of `sigchld_handler` on a job table with pairwise
distinct pids uses up all of `L` and leaves exactly the entries whose pid is
not in `L`, in their order; an entry whose pid is not in `L` stays. -/
theorem sigchld_handler_spec (jobs : List job) (L : List Int)
    (hnd : (jobs.map job.pid).Nodup) (hpos : ∀ p ∈ L, 0 < p) :
    (sigchld_handler L jobs).1 = [] ∧
    (sigchld_handler L jobs).2 = jobs.filter (fun j => decide (j.pid ∉ L)) ∧
    (∀ j ∈ jobs, j.pid ∉ L → j ∈ (sigchld_handler L jobs).2) := by
  rw [sigchld_handler_eq L jobs hnd hpos]
  refine ⟨rfl, rfl, ?_⟩
  intro j hj hL
  exact List.mem_filter.mpr ⟨hj, by simpa using hL⟩

theorem sigchld_handler_spec_witness :
    ([(7 : Int), 9, 4].Nodup) ∧ (∀ p ∈ [(4 : Int), 12, 7], 0 < p) ∧
    sigchld_handler [4, 12, 7] [⟨7, ['a']⟩, ⟨9, ['b']⟩, ⟨4, ['c']⟩] = ([], [⟨9, ['b']⟩]) :=
  ⟨by decide, by decide,
   Prod.ext
     (sigchld_handler_spec [⟨7, ['a']⟩, ⟨9, ['b']⟩, ⟨4, ['c']⟩] [4, 12, 7]
        (by decide) (by decide)).1
     ((sigchld_handler_spec [⟨7, ['a']⟩, ⟨9, ['b']⟩, ⟨4, ['c']⟩] [4, 12, 7]
        (by decide) (by decide)).2.1.trans (by decide))⟩

/-! ## Tokenising: proofs -/

theorem strtok_nil (ds : List Char) : strtok ds [] = { token := none, saved := [] } := rfl

theorem strtok_delim (d c : Char) (cs : CStr) (h : c = d) :
    strtok [d] (c :: cs) = strtok [d] cs := by
  subst h
  simp [strtok, List.dropWhile_cons]

theorem strtok_token (d c : Char) (cs : CStr) (h : c ≠ d) :
    strtok [d] (c :: cs) =
      { token := some ((c :: cs).takeWhile (fun x => !([d].contains x))),
        saved := ((c :: cs).dropWhile (fun x => !([d].contains x))).drop 1 } := by
  simp [strtok, List.dropWhile_cons, h]

theorem token_loop_none (ds : List Char) (n : Nat) (sv : CStr) :
    token_loop ds n { token := none, saved := sv } = [] := by
  cases n <;> rfl

theorem token_loop_succ (ds : List Char) (n : Nat) (tok sv : CStr) :
    token_loop ds (n + 1) { token := some tok, saved := sv } =
      tok :: token_loop ds n (strtok ds sv) := rfl

theorem takeWhile_dropWhile_split {α : Type} (p : α → Bool) (l₁ : List α) (a : α) (l₂ : List α)
    (h : ∀ x ∈ l₁, p x = true) (ha : p a = false) :
    (l₁ ++ a :: l₂).takeWhile p = l₁ ∧ (l₁ ++ a :: l₂).dropWhile p = a :: l₂ := by
  induction l₁ with
  | nil => simp [List.takeWhile_cons, List.dropWhile_cons, ha]
  | cons x xs ih =>
    have hx : p x = true := h x (List.mem_cons_self _ _)
    have hxs : ∀ y ∈ xs, p y = true := fun y hy => h y (List.mem_cons_of_mem _ hy)
    simp [List.takeWhile_cons, List.dropWhile_cons, hx, ih hxs]

theorem split_at_delim (d : Char) (s : CStr) :
    ∃ tok rest, s = tok ++ rest ∧ (∀ x ∈ tok, x ≠ d) ∧ (rest = [] ∨ ∃ r, rest = d :: r) := by
  induction s with
  | nil => exact ⟨[], [], rfl, by simp, Or.inl rfl⟩
  | cons c cs ih =>
    by_cases hc : c = d
    · exact ⟨[], c :: cs, rfl, by simp, Or.inr ⟨cs, by rw [hc]⟩⟩
    · obtain ⟨tok, rest, hs, htok, hrest⟩ := ih
      refine ⟨c :: tok, rest, by rw [hs]; rfl, ?_, hrest⟩
      intro x hx
      rcases List.mem_cons.mp hx with h | h
      · rw [h]; exact hc
      · exact htok x h

theorem strtok_token_delim (d : Char) (tok r : CStr) (hne : tok ≠ []) (htok : ∀ x ∈ tok, x ≠ d) :
    strtok [d] (tok ++ d :: r) = { token := some tok, saved := r } := by
  cases tok with
  | nil => exact absurd rfl hne
  | cons c tok1 =>
    have hc : c ≠ d := htok c (List.mem_cons_self _ _)
    have hp : ∀ x ∈ c :: tok1, (fun x => !([d].contains x)) x = true := by
      intro x hx; simp [htok x hx]
    have hd : (fun x => !([d].contains x)) d = false := by simp
    have h := takeWhile_dropWhile_split (fun x => !([d].contains x)) (c :: tok1) d r hp hd
    rw [List.cons_append, strtok_token d c _ hc, ← List.cons_append, h.1, h.2]
    rfl

theorem strtok_token_end (d : Char) (tok : CStr) (hne : tok ≠ []) (htok : ∀ x ∈ tok, x ≠ d) :
    strtok [d] tok = { token := some tok, saved := [] } := by
  cases tok with
  | nil => exact absurd rfl hne
  | cons c tok1 =>
    have hc : c ≠ d := htok c (List.mem_cons_self _ _)
    have hp : ∀ x ∈ c :: tok1, (fun x => !([d].contains x)) x = true := by
      intro x hx; simp [htok x hx]
    rw [strtok_token d c _ hc, List.takeWhile_eq_self_iff.mpr hp,
      List.dropWhile_eq_nil_iff.mpr hp]
    rfl

theorem fields_nil (d : Char) : fields d [] = [] := by
  simp [fields, List.splitOn, List.splitOnP_nil]

theorem fields_delim (d : Char) (cs : CStr) : fields d (d :: cs) = fields d cs := by
  simp [fields, List.splitOn, List.splitOnP_cons]

theorem fields_token_delim (d : Char) (tok r : CStr) (hne : tok ≠ []) (htok : ∀ x ∈ tok, x ≠ d) :
    fields d (tok ++ d :: r) = tok :: fields d r := by
  have h := List.splitOnP_first (fun x => x == d) tok (by simpa using htok) d (by simp) r
  simp [fields, List.splitOn, h, hne]

theorem fields_token_end (d : Char) (tok : CStr) (hne : tok ≠ []) (htok : ∀ x ∈ tok, x ≠ d) :
    fields d tok = [tok] := by
  have h := List.splitOnP_eq_single (fun x => x == d) tok (by simpa using htok)
  simp [fields, List.splitOn, h, hne]

/-- The `strtok` loop collects the first `n` non-empty fields of the text. -/
theorem token_loop_strtok (d : Char) :
    ∀ (m : Nat) (s : CStr), s.length ≤ m → ∀ n : Nat,
      token_loop [d] n (strtok [d] s) = (fields d s).take n := by
  intro m
  induction m with
  | zero =>
    intro s hs n
    have : s = [] := List.length_eq_zero.mp (Nat.le_zero.mp hs)
    subst this
    rw [strtok_nil, token_loop_none, fields_nil, List.take_nil]
  | succ m ih =>
    intro s hs n
    obtain ⟨tok, rest, hsr, htok, hrest⟩ := split_at_delim d s
    subst hsr
    by_cases hne : tok = []
    · subst hne
      rcases hrest with h | ⟨r, h⟩
      · subst h
        rw [List.nil_append, strtok_nil, token_loop_none, fields_nil, List.take_nil]
      · subst h
        have hr : r.length ≤ m := by simp at hs; omega
        rw [List.nil_append, strtok_delim d d r rfl, fields_delim, ih r hr n]
    · have hlen : 0 < tok.length := List.length_pos.mpr hne
      rcases hrest with h | ⟨r, h⟩
      · subst h
        rw [List.append_nil, strtok_token_end d tok hne htok, fields_token_end d tok hne htok]
        cases n with
        | zero => rfl
        | succ n =>
          rw [token_loop_succ, strtok_nil, token_loop_none]
          simp
      · subst h
        have hr : r.length ≤ m := by simp at hs; omega
        rw [strtok_token_delim d tok r hne htok, fields_token_delim d tok r hne htok]
        cases n with
        | zero => rfl
        | succ n => rw [token_loop_succ, ih r hr n, List.take_succ_cons]

theorem token_loop_eq_fields (d : Char) (s : CStr) (n : Nat) :
    token_loop [d] n (strtok [d] s) = (fields d s).take n :=
  token_loop_strtok d s.length s (Nat.le_refl _) n

/-! ## `parse_command`: proofs -/

theorem chomp_ne_nil {cmdline : CStr} (h : chomp cmdline ≠ []) : cmdline ≠ [] := by
  intro hc
  subst hc
  exact h rfl

theorem strip_newline_eq (cmdline : CStr) (h : cmdline ≠ []) :
    strip_newline cmdline = some (chomp cmdline) := by
  obtain ⟨c, hc⟩ : ∃ c, cmdline.getLast? = some c := by
    cases hl : cmdline.getLast? with
    | none => exact absurd (List.getLast?_eq_none_iff.mp hl) h
    | some c => exact ⟨c, rfl⟩
  unfold strip_newline chomp
  rw [hc]
  by_cases hn : c = '\n'
  · simp [hn]
  · simp [hn]

theorem parse_command_eq (cmdline : CStr) (bg : Int) (h : chomp cmdline ≠ []) :
    parse_command cmdline bg =
      some (if (chomp cmdline).getLast? = some '&' then
              { line := (chomp cmdline).dropLast,
                commands := (stages_of (chomp cmdline).dropLast).take (MAX_CMDS - 1),
                background := 1 }
            else
              { line := chomp cmdline,
                commands := (stages_of (chomp cmdline)).take (MAX_CMDS - 1),
                background := bg }) := by
  obtain ⟨c, hc⟩ : ∃ c, (chomp cmdline).getLast? = some c := by
    cases hl : (chomp cmdline).getLast? with
    | none => exact absurd (List.getLast?_eq_none_iff.mp hl) h
    | some c => exact ⟨c, rfl⟩
  unfold parse_command
  rw [strip_newline_eq cmdline (chomp_ne_nil h)]
  simp only [strip_background, hc, stages_of, token_loop_eq_fields]
  by_cases ha : c = '&'
  · simp [ha]
  · simp [ha]

/-- C8, as the code has it: on a command line that is not empty once its
terminator is stripped, `parse_command` sets `background` to 1 and cuts the
last character off exactly when that last character is `&` (whatever stands
before it); in every other case `background` stays 0 and the stripped line is
what is split into stages. -/
theorem parse_command_background (cmdline : CStr) (h : chomp cmdline ≠ []) :
    ∃ r, parse_command cmdline 0 = some r ∧
      (r.background = 1 ↔ (chomp cmdline).getLast? = some '&') ∧
      (r.background = 0 ↔ (chomp cmdline).getLast? ≠ some '&') ∧
      r.line = (if (chomp cmdline).getLast? = some '&' then (chomp cmdline).dropLast
                else chomp cmdline) ∧
      r.commands = (stages_of r.line).take (MAX_CMDS - 1) := by
  rw [parse_command_eq cmdline 0 h]
  by_cases ha : (chomp cmdline).getLast? = some '&'
  · exact ⟨_, rfl, by simp [ha], by simp [ha], by simp [ha], by simp [ha]⟩
  · exact ⟨_, rfl, by simp [ha], by simp [ha], by simp [ha], by simp [ha]⟩

theorem parse_command_background_witness :
    chomp "ls | wc&\n".toList ≠ [] ∧
    ∃ r, parse_command "ls | wc&\n".toList 0 = some r ∧
      (r.background = 1 ↔ (chomp "ls | wc&\n".toList).getLast? = some '&') ∧
      (r.background = 0 ↔ (chomp "ls | wc&\n".toList).getLast? ≠ some '&') ∧
      r.line = (if (chomp "ls | wc&\n".toList).getLast? = some '&'
                then (chomp "ls | wc&\n".toList).dropLast
                else chomp "ls | wc&\n".toList) ∧
      r.commands = (stages_of r.line).take (MAX_CMDS - 1) :=
  ⟨by decide, parse_command_background "ls | wc&\n".toList (by decide)⟩

/-- C8 as stated fails in both directions: in `sleep 5 & ` the last
non-whitespace token is the lone `&`, yet `background` stays 0 and the `&`
stays in the text of the stage; in `sleep 5&` the last token is `5&`, not a
lone `&`, yet `background` becomes 1. -/
theorem parse_command_background_counterexample :
    (spec_background_marker (chomp "sleep 5 & \n".toList) = true ∧
      parse_command "sleep 5 & \n".toList 0 =
        some { line := "sleep 5 & ".toList, commands := ["sleep 5 & ".toList],
               background := 0 }) ∧
    (spec_background_marker (chomp "sleep 5&\n".toList) = false ∧
      parse_command "sleep 5&\n".toList 0 =
        some { line := "sleep 5".toList, commands := ["sleep 5".toList],
               background := 1 }) := by
  decide

/-! ## Descriptor tables: proofs -/

theorem fd_lookup_cons (a : Nat) (f : OpenFile) (t : FdTable) (x : Nat) :
    fd_lookup ((a, f) :: t) x = if a = x then some f else fd_lookup t x := rfl

theorem fd_lookup_isSome_iff (t : FdTable) (x : Nat) :
    (fd_lookup t x).isSome = true ↔ x ∈ t.map Prod.fst := by
  induction t with
  | nil => simp [fd_lookup]
  | cons e rest ih =>
    obtain ⟨a, f⟩ := e
    rw [fd_lookup_cons]
    by_cases h : a = x
    · simp [h]
    · have h' : ¬ x = a := fun hx => h hx.symm
      simp [h, h', ih]

theorem fd_lookup_close (t : FdTable) (y x : Nat) :
    fd_lookup (fd_close t y) x = if x = y then none else fd_lookup t x := by
  induction t with
  | nil => simp [fd_close, fd_lookup]
  | cons e rest ih =>
    obtain ⟨a, f⟩ := e
    unfold fd_close at ih ⊢
    by_cases hay : a = y
    · subst hay
      rw [List.filter_cons_of_neg (by simp), ih, fd_lookup_cons]
      by_cases hx : x = a
      · simp [hx]
      · have : ¬ a = x := fun h => hx h.symm
        simp [hx, this]
    · rw [List.filter_cons_of_pos (by simpa using hay), fd_lookup_cons, fd_lookup_cons, ih]
      by_cases hx : a = x
      · have : ¬ x = y := fun h => hay (hx.trans h)
        simp [hx, this]
      · simp [hx]

theorem fd_lookup_dup2 (t : FdTable) (oldfd newfd : Nat) (f : OpenFile)
    (h : fd_lookup t oldfd = some f) (x : Nat) :
    fd_lookup (fd_dup2 t oldfd newfd) x = if x = newfd then some f else fd_lookup t x := by
  unfold fd_dup2
  rw [h]
  by_cases hon : oldfd = newfd
  · subst hon
    by_cases hx : x = oldfd
    · simp [hx, h]
    · simp [hx]
  · simp only [hon, if_false, fd_lookup_cons, fd_lookup_close]
    by_cases hx : x = newfd
    · simp [hx]
    · have : ¬ newfd = x := fun h => hx h.symm
      simp [hx, this]

theorem fd_lookup_close_all (pf : List Nat) :
    ∀ (t : FdTable) (x : Nat),
      fd_lookup (pf.foldl fd_close t) x = if x ∈ pf then none else fd_lookup t x := by
  induction pf with
  | nil => intro t x; simp
  | cons a rest ih =>
    intro t x
    rw [List.foldl_cons, ih, fd_lookup_close]
    by_cases hr : x ∈ rest
    · simp [hr]
    · by_cases ha : x = a
      · simp [ha]
      · simp [hr, ha]

theorem first_free_spec (t : FdTable) :
    ∀ (fuel n : Nat),
      fd_lookup t (first_free t fuel n) = none ∨
      (first_free t fuel n = n + fuel ∧
        ∀ k, n ≤ k → k < n + fuel → (fd_lookup t k).isSome = true) := by
  intro fuel
  induction fuel with
  | zero => intro n; exact Or.inr ⟨rfl, fun k h1 h2 => absurd h2 (by omega)⟩
  | succ fuel ih =>
    intro n
    unfold first_free
    cases hn : fd_lookup t n with
    | none => left; simp [hn]
    | some f =>
      simp only [Option.isNone_some, Bool.false_eq_true, if_false]
      rcases ih (n + 1) with h | ⟨h1, h2⟩
      · exact Or.inl h
      · refine Or.inr ⟨by rw [h1]; omega, fun k hk1 hk2 => ?_⟩
        by_cases hkn : k = n
        · rw [hkn, hn]; rfl
        · exact h2 k (by omega) (by omega)

/-- The descriptor number handed out by `pipe` and `open` is not in use. -/
theorem lowest_free_fresh (t : FdTable) : fd_lookup t (lowest_free t) = none := by
  unfold lowest_free
  rcases first_free_spec t t.length 0 with h | ⟨h1, h2⟩
  · exact h
  · rw [h1, Nat.zero_add]
    cases hl : fd_lookup t t.length with
    | none => rfl
    | some f =>
      exfalso
      have hsub : Finset.range (t.length + 1) ⊆ (t.map Prod.fst).toFinset := by
        intro k hk
        rw [List.mem_toFinset, ← fd_lookup_isSome_iff]
        by_cases hkl : k = t.length
        · rw [hkl, hl]; rfl
        · exact h2 k (Nat.zero_le _) (by have := Finset.mem_range.mp hk; omega)
      have h3 := Finset.card_le_card hsub
      have h4 := List.toFinset_card_le (t.map Prod.fst)
      rw [Finset.card_range] at h3
      rw [List.length_map] at h4
      omega

theorem first_free_least (t : FdTable) :
    ∀ (fuel n k : Nat), n ≤ k → k < first_free t fuel n → (fd_lookup t k).isSome = true := by
  intro fuel
  induction fuel with
  | zero => intro n k h1 h2; exact absurd h2 (by unfold first_free; omega)
  | succ fuel ih =>
    intro n k h1 h2
    unfold first_free at h2
    cases hn : fd_lookup t n with
    | none => simp [hn] at h2; omega
    | some f =>
      simp only [hn, Option.isNone_some, Bool.false_eq_true, if_false] at h2
      by_cases hkn : k = n
      · rw [hkn, hn]; rfl
      · exact ih (n + 1) k (by omega) h2

/-- Every descriptor number below the one handed out is in use. -/
theorem lowest_free_least (t : FdTable) (k : Nat) (h : k < lowest_free t) :
    (fd_lookup t k).isSome = true :=
  first_free_least t t.length 0 k (Nat.zero_le _) h

/-! ## The pipe allocation loop: proofs -/

theorem PipesInv_init (t : FdTable) (h0 : (fd_lookup t 0).isSome = true)
    (h1 : (fd_lookup t 1).isSome = true) : PipesInv t [] 0 :=
  ⟨rfl, fun k hk => absurd hk (Nat.not_lt_zero k), fun fd hfd => absurd hfd (List.not_mem_nil fd),
   h0, h1⟩

theorem ne_of_lookup {t : FdTable} {a b : Nat} (ha : (fd_lookup t a).isSome = true)
    (hb : fd_lookup t b = none) : a ≠ b := by
  intro h
  rw [h, hb] at ha
  exact absurd ha (by simp)

theorem PipesInv_step (t : FdTable) (pipefds : List Nat) (i : Nat) (h : PipesInv t pipefds i) :
    PipesInv
      ((lowest_free ((lowest_free t, OpenFile.pipe_read i) :: t), OpenFile.pipe_write i) ::
        (lowest_free t, OpenFile.pipe_read i) :: t)
      (pipefds ++ [lowest_free t, lowest_free ((lowest_free t, OpenFile.pipe_read i) :: t)])
      (i + 1) := by
  obtain ⟨hlen, hpipes, hge, h0, h1⟩ := h
  have hrd := lowest_free_fresh t
  have hwr := lowest_free_fresh ((lowest_free t, OpenFile.pipe_read i) :: t)
  generalize lowest_free ((lowest_free t, OpenFile.pipe_read i) :: t) = wr at hwr ⊢
  generalize lowest_free t = rd at hrd hwr ⊢
  rw [fd_lookup_cons] at hwr
  have hrw : rd ≠ wr := by
    intro hEq
    rw [if_pos hEq] at hwr
    exact absurd hwr (by simp)
  rw [if_neg hrw] at hwr
  have hrd0 : (0 : Nat) ≠ rd := ne_of_lookup h0 hrd
  have hrd1 : (1 : Nat) ≠ rd := ne_of_lookup h1 hrd
  have hwr0 : (0 : Nat) ≠ wr := ne_of_lookup h0 hwr
  have hwr1 : (1 : Nat) ≠ wr := ne_of_lookup h1 hwr
  have keep : ∀ x f, fd_lookup t x = some f →
      fd_lookup ((wr, OpenFile.pipe_write i) :: (rd, OpenFile.pipe_read i) :: t) x = some f := by
    intro x f hx
    have hs : (fd_lookup t x).isSome = true := by rw [hx]; rfl
    have hxr : x ≠ rd := ne_of_lookup hs hrd
    have hxw : x ≠ wr := ne_of_lookup hs hwr
    rw [fd_lookup_cons, if_neg (Ne.symm hxw), fd_lookup_cons, if_neg (Ne.symm hxr), hx]
  refine ⟨by simp [hlen]; omega, ?_, ?_, ?_, ?_⟩
  · intro k hk
    by_cases hki : k < i
    · obtain ⟨hr, hw⟩ := hpipes k hki
      have e1 : (pipefds ++ [rd, wr]).getD (2 * k) 0 = pipefds.getD (2 * k) 0 := by
        simp only [List.getD_eq_getElem?_getD]
        rw [List.getElem?_append_left (by omega)]
      have e2 : (pipefds ++ [rd, wr]).getD (2 * k + 1) 0 = pipefds.getD (2 * k + 1) 0 := by
        simp only [List.getD_eq_getElem?_getD]
        rw [List.getElem?_append_left (by omega)]
      rw [e1, e2]
      exact ⟨keep _ _ hr, keep _ _ hw⟩
    · have hk' : k = i := by omega
      subst hk'
      have e1 : (pipefds ++ [rd, wr]).getD (2 * k) 0 = rd := by
        simp only [List.getD_eq_getElem?_getD]
        rw [List.getElem?_append_right (by omega)]
        simp [hlen]
      have e2 : (pipefds ++ [rd, wr]).getD (2 * k + 1) 0 = wr := by
        simp only [List.getD_eq_getElem?_getD]
        rw [List.getElem?_append_right (by omega)]
        simp [hlen]
      rw [e1, e2]
      constructor
      · rw [fd_lookup_cons, if_neg (Ne.symm hrw), fd_lookup_cons, if_pos rfl]
      · rw [fd_lookup_cons, if_pos rfl]
  · intro fd hfd
    rcases List.mem_append.mp hfd with hm | hm
    · exact hge fd hm
    · simp only [List.mem_cons, List.mem_singleton, List.not_mem_nil, or_false] at hm
      rcases hm with hm | hm
      · subst hm; omega
      · subst hm; omega
  · obtain ⟨f, hf⟩ := Option.isSome_iff_exists.mp h0
    rw [keep 0 f hf]; rfl
  · obtain ⟨f, hf⟩ := Option.isSome_iff_exists.mp h1
    rw [keep 1 f hf]; rfl

theorem pipe_loop_ok (sys : Sys) (hpipe : ∀ i, sys.pipe_ok i = true) :
    ∀ (todo i : Nat) (t : FdTable) (pipefds : List Nat),
      (pipe_loop sys todo i t pipefds).ok = true ∧
      (∀ e ∈ (pipe_loop sys todo i t pipefds).trace, is_pipe e = true) ∧
      (PipesInv t pipefds i →
        PipesInv (pipe_loop sys todo i t pipefds).fds (pipe_loop sys todo i t pipefds).pipefds
          (i + todo)) := by
  intro todo
  induction todo with
  | zero =>
    intro i t pipefds
    exact ⟨rfl, fun e he => absurd he (List.not_mem_nil e), fun h => h⟩
  | succ todo ih =>
    intro i t pipefds
    unfold pipe_loop
    simp only [hpipe, if_true]
    obtain ⟨h1, h2, h3⟩ := ih (i + 1)
      ((lowest_free ((lowest_free t, OpenFile.pipe_read i) :: t), OpenFile.pipe_write i) ::
        (lowest_free t, OpenFile.pipe_read i) :: t)
      (pipefds ++ [lowest_free t, lowest_free ((lowest_free t, OpenFile.pipe_read i) :: t)])
    refine ⟨h1, ?_, ?_⟩
    · intro e he
      rcases List.mem_cons.mp he with h | h
      · rw [h]; rfl
      · exact h2 e h
    · intro hinv
      have := h3 (PipesInv_step t pipefds i hinv)
      rw [show i + (todo + 1) = i + 1 + todo by omega]
      exact this

/-- Whatever the outcome of the `pipe` calls: the loop appends to `pipefds`
descriptors that were not open before, and changes no other descriptor. -/
theorem pipe_loop_frame (sys : Sys) :
    ∀ (todo i : Nat) (t : FdTable) (pipefds : List Nat),
      ∃ added, (pipe_loop sys todo i t pipefds).pipefds = pipefds ++ added ∧
        (∀ x ∈ added, fd_lookup t x = none) ∧
        (∀ x, x ∉ added → fd_lookup (pipe_loop sys todo i t pipefds).fds x = fd_lookup t x) := by
  intro todo
  induction todo with
  | zero =>
    intro i t pipefds
    exact ⟨[], by simp [pipe_loop], by simp, fun x _ => rfl⟩
  | succ todo ih =>
    intro i t pipefds
    unfold pipe_loop
    by_cases hok : sys.pipe_ok i = true
    · simp only [hok, if_true]
      have hrd := lowest_free_fresh t
      have hwr := lowest_free_fresh ((lowest_free t, OpenFile.pipe_read i) :: t)
      obtain ⟨added, h1, h2, h3⟩ := ih (i + 1)
        ((lowest_free ((lowest_free t, OpenFile.pipe_read i) :: t), OpenFile.pipe_write i) ::
          (lowest_free t, OpenFile.pipe_read i) :: t)
        (pipefds ++ [lowest_free t, lowest_free ((lowest_free t, OpenFile.pipe_read i) :: t)])
      generalize lowest_free ((lowest_free t, OpenFile.pipe_read i) :: t) = wr at hwr h1 h2 h3 ⊢
      generalize lowest_free t = rd at hrd hwr h1 h2 h3 ⊢
      rw [fd_lookup_cons] at hwr
      have hrw : rd ≠ wr := by
        intro hEq
        rw [if_pos hEq] at hwr
        exact absurd hwr (by simp)
      rw [if_neg hrw] at hwr
      refine ⟨[rd, wr] ++ added, by rw [h1, List.append_assoc], ?_, ?_⟩
      · intro x hx
        rcases List.mem_append.mp hx with hm | hm
        · simp only [List.mem_cons, List.mem_singleton, List.not_mem_nil, or_false] at hm
          rcases hm with hm | hm
          · rw [hm]; exact hrd
          · rw [hm]; exact hwr
        · have := h2 x hm
          rw [fd_lookup_cons, fd_lookup_cons] at this
          by_cases hxw : wr = x
          · rw [if_pos hxw] at this; exact absurd this (by simp)
          · rw [if_neg hxw] at this
            by_cases hxr : rd = x
            · rw [if_pos hxr] at this; exact absurd this (by simp)
            · rw [if_neg hxr] at this; exact this
      · intro x hx
        have hxa : x ∉ added := fun h => hx (List.mem_append_right _ h)
        have hxr : rd ≠ x := fun h => hx (by rw [← h]; simp)
        have hxw : wr ≠ x := fun h => hx (by rw [← h]; simp)
        rw [h3 x hxa, fd_lookup_cons, if_neg hxw, fd_lookup_cons, if_neg hxr]
    · rw [if_neg hok]
      refine ⟨[], ?_, ?_, ?_⟩
      · simp
      · intro x hx; exact absurd hx (List.not_mem_nil x)
      · intro x _; rfl

/-! ## The spawn loop and the whole call: proofs -/

theorem spawn_loop_ok (sys : Sys) (hfork : ∀ i, (sys.fork_pid i).isSome = true)
    (num_cmds : Nat) (pipefds : List Nat) (t : FdTable) :
    ∀ (cmds : List CStr) (i : Nat) (pid : Int),
      (spawn_loop sys num_cmds pipefds t cmds i pid).ok = true ∧
      (spawn_loop sys num_cmds pipefds t cmds i pid).trace =
        (cmds.enumFrom i).map (fork_event sys num_cmds pipefds t) := by
  intro cmds
  induction cmds with
  | nil => intro i pid; exact ⟨rfl, rfl⟩
  | cons c rest ih =>
    intro i pid
    obtain ⟨q, hq⟩ := Option.isSome_iff_exists.mp (hfork i)
    unfold spawn_loop
    simp only [hq]
    obtain ⟨h1, h2⟩ := ih (i + 1) q
    refine ⟨h1, ?_⟩
    rw [List.enumFrom_cons, List.map_cons, ← h2]
    simp [fork_event, hq]

theorem fork_calls_append (a b : List Event) :
    fork_calls (a ++ b) = fork_calls a + fork_calls b := by
  simp [fork_calls]

theorem wait_calls_append (a b : List Event) :
    wait_calls (a ++ b) = wait_calls a + wait_calls b := by
  simp [wait_calls]

theorem perror_calls_append (a b : List Event) :
    perror_calls (a ++ b) = perror_calls a + perror_calls b := by
  simp [perror_calls]

theorem spawned_append (a b : List Event) : spawned (a ++ b) = spawned a ++ spawned b := by
  simp [spawned]

theorem children_append (a b : List Event) : children (a ++ b) = children a ++ children b := by
  simp [children]

theorem quiet_of_pipes (tr : List Event) (h : ∀ e ∈ tr, is_pipe e = true) : Quiet tr := by
  induction tr with
  | nil => exact ⟨rfl, rfl, rfl, rfl, rfl⟩
  | cons e rest ih =>
    obtain ⟨h1, h2, h3, h4, h5⟩ := ih (fun x hx => h x (List.mem_cons_of_mem _ hx))
    have he := h e (List.mem_cons_self _ _)
    cases e <;> simp [is_pipe] at he
    simp only [fork_calls, wait_calls, perror_calls, spawned, children] at h1 h2 h3 h4 h5
    refine ⟨?_, ?_, ?_, ?_, ?_⟩
    · simp [fork_calls, is_fork, h1]
    · simp [wait_calls, h2]
    · simp [perror_calls, is_perror, h3]
    · simp [spawned, spawned_stage, h4]
    · simp [children, spawned_child, h5]

theorem quiet_closes (pf : List Nat) : Quiet (pf.map Event.close) := by
  induction pf with
  | nil => exact ⟨rfl, rfl, rfl, rfl, rfl⟩
  | cons a rest ih =>
    obtain ⟨h1, h2, h3, h4, h5⟩ := ih
    simp only [fork_calls, wait_calls, perror_calls, spawned, children] at h1 h2 h3 h4 h5
    refine ⟨?_, ?_, ?_, ?_, ?_⟩
    · simp [fork_calls, is_fork, h1]
    · simpa [wait_calls] using h2
    · simp [perror_calls, is_perror, h3]
    · simp [spawned, spawned_stage, h4]
    · simp [children, spawned_child, h5]

theorem forks_read (sys : Sys) (num_cmds : Nat) (pipefds : List Nat) (t : FdTable) :
    ∀ (l : List (Nat × CStr)),
      fork_calls (l.map (fork_event sys num_cmds pipefds t)) = l.length ∧
      wait_calls (l.map (fork_event sys num_cmds pipefds t)) = 0 ∧
      perror_calls (l.map (fork_event sys num_cmds pipefds t)) = 0 ∧
      spawned (l.map (fork_event sys num_cmds pipefds t)) = l ∧
      children (l.map (fork_event sys num_cmds pipefds t)) =
        l.map (fun ic => child sys ic.1 num_cmds pipefds (parse_args ic.2) t) := by
  intro l
  induction l with
  | nil => exact ⟨rfl, rfl, rfl, rfl, rfl⟩
  | cons a rest ih =>
    obtain ⟨h1, h2, h3, h4, h5⟩ := ih
    simp only [fork_calls, wait_calls, perror_calls, spawned, children] at h1 h2 h3 h4 h5
    refine ⟨?_, ?_, ?_, ?_, ?_⟩
    · simp [fork_calls, fork_event, is_fork, h1]
    · simpa [wait_calls, fork_event] using h2
    · simp [perror_calls, fork_event, is_perror, h3]
    · simp [spawned, fork_event, spawned_stage, h4]
    · simp [children, fork_event, spawned_child, h5]

theorem waits_read (n : Nat) :
    fork_calls (List.replicate n Event.wait) = 0 ∧
    wait_calls (List.replicate n Event.wait) = n ∧
    perror_calls (List.replicate n Event.wait) = 0 ∧
    spawned (List.replicate n Event.wait) = [] ∧
    children (List.replicate n Event.wait) = [] := by
  induction n with
  | zero => exact ⟨rfl, rfl, rfl, rfl, rfl⟩
  | succ n ih =>
    obtain ⟨h1, h2, h3, h4, h5⟩ := ih
    simp only [fork_calls, wait_calls, perror_calls, spawned, children] at h1 h2 h3 h4 h5
    refine ⟨?_, ?_, ?_, ?_, ?_⟩
    · simp [fork_calls, List.replicate_succ, is_fork, h1]
    · simp [wait_calls]
    · simp [perror_calls, List.replicate_succ, is_perror, h3]
    · simp [spawned, List.replicate_succ, spawned_stage, h4]
    · simp [children, List.replicate_succ, spawned_child, h5]

/-- A line that is not the `jobs` built-in, splits into at least one stage and
meets no failing `pipe` or `fork`: the call returns, with one fork per stage
in stage order, each child started from the table that holds all pipes, and as
many waits as stages when it runs in the foreground. -/
theorem execute_command_ok (sys : Sys) (cmdline : CStr) (t : FdTable) (jobs : List job)
    (p : Parsed) (hjobs : cmdline.take 4 ≠ ['j', 'o', 'b', 's'])
    (hp : parse_command cmdline 0 = some p) (hne : p.commands ≠ [])
    (hpipe : ∀ i, sys.pipe_ok i = true) (hfork : ∀ i, (sys.fork_pid i).isSome = true) :
    ∃ r, execute_command sys cmdline t jobs = some r ∧
      fork_calls r.trace = p.commands.length ∧
      spawned r.trace = p.commands.enum ∧
      children r.trace = p.commands.enum.map (fun ic =>
        child sys ic.1 p.commands.length
          (pipe_loop sys (p.commands.length - 1) 0 t []).pipefds (parse_args ic.2)
          (pipe_loop sys (p.commands.length - 1) 0 t []).fds) ∧
      wait_calls r.trace = (if p.background = 0 then p.commands.length else 0) ∧
      perror_calls r.trace = 0 ∧
      r.fds = (pipe_loop sys (p.commands.length - 1) 0 t []).pipefds.foldl fd_close
        (pipe_loop sys (p.commands.length - 1) 0 t []).fds := by
  obtain ⟨hok, hpipes, _⟩ := pipe_loop_ok sys hpipe (p.commands.length - 1) 0 t []
  obtain ⟨q1, q2, q3, q4, q5⟩ := quiet_of_pipes _ hpipes
  have hlen : p.commands.length ≠ 0 := fun h => hne (List.length_eq_zero.mp h)
  unfold execute_command
  simp only [hjobs, if_false, hp, hlen, hok, Bool.not_true, Bool.false_eq_true]
  generalize pipe_loop sys (p.commands.length - 1) 0 t [] = pa at hok q1 q2 q3 q4 q5 ⊢
  obtain ⟨hsok, hstr⟩ := spawn_loop_ok sys hfork p.commands.length pa.pipefds pa.fds p.commands 0 0
  simp only [hsok, Bool.not_true, Bool.false_eq_true, if_false, hstr]
  obtain ⟨f1, f2, f3, f4, f5⟩ :=
    forks_read sys p.commands.length pa.pipefds pa.fds (p.commands.enumFrom 0)
  obtain ⟨c1, c2, c3, c4, c5⟩ := quiet_closes pa.pipefds
  obtain ⟨w1, w2, w3, w4, w5⟩ := waits_read p.commands.length
  by_cases hbg : p.background = 0
  · simp only [hbg, ne_eq, not_true_eq_false, if_false, if_true]
    refine ⟨_, rfl, ?_, ?_, ?_, ?_, ?_, rfl⟩
    · simp only [fork_calls_append, q1, f1, c1, w1, List.enumFrom_length]; omega
    · simp only [spawned_append, q4, f4, c4, w4, List.enum]; simp
    · simp only [children_append, q5, f5, c5, w5, List.enum]; simp
    · simp only [wait_calls_append, q2, f2, c2, w2]; omega
    · simp only [perror_calls_append, q3, f3, c3, w3]
  · simp only [hbg, ne_eq, not_false_eq_true, if_false, if_true]
    refine ⟨_, rfl, ?_, ?_, ?_, ?_, ?_, rfl⟩
    · simp only [fork_calls_append, q1, f1, c1, List.enumFrom_length]
      simp [fork_calls, is_fork]
    · simp only [spawned_append, q4, f4, c4, List.enum]
      simp [spawned, spawned_stage]
    · simp only [children_append, q5, f5, c5, List.enum]
      simp [children, spawned_child]
    · simp only [wait_calls_append, q2, f2, c2]
      simp [wait_calls]
    · simp only [perror_calls_append, q3, f3, c3]
      simp [perror_calls, is_perror]

/-- On the path without failures the parent closes every pipe it made: each
descriptor names at return what it named at entry. -/
theorem parent_fds_restored (sys : Sys) (cmdline : CStr) (t : FdTable) (jobs : List job)
    (p : Parsed) (hjobs : cmdline.take 4 ≠ ['j', 'o', 'b', 's'])
    (hp : parse_command cmdline 0 = some p) (hne : p.commands ≠ [])
    (hpipe : ∀ i, sys.pipe_ok i = true) (hfork : ∀ i, (sys.fork_pid i).isSome = true) :
    ∃ r, execute_command sys cmdline t jobs = some r ∧ ∀ x, fd_lookup r.fds x = fd_lookup t x := by
  obtain ⟨r, hr, _, _, _, _, _, hfds⟩ :=
    execute_command_ok sys cmdline t jobs p hjobs hp hne hpipe hfork
  obtain ⟨added, h1, h2, h3⟩ := pipe_loop_frame sys (p.commands.length - 1) 0 t []
  refine ⟨r, hr, fun x => ?_⟩
  rw [hfds, fd_lookup_close_all, h1, List.nil_append]
  by_cases hx : x ∈ added
  · rw [if_pos hx, h2 x hx]
  · rw [if_neg hx, h3 x hx]

/-! ## Lines made of stages -/

theorem mem_intercalate (sep : CStr) :
    ∀ (ls : List CStr) (c : Char), c ∈ List.intercalate sep ls → c ∈ sep ∨ ∃ l ∈ ls, c ∈ l := by
  intro ls
  induction ls with
  | nil => intro c hc; simp [List.intercalate] at hc
  | cons x rest ih =>
    intro c hc
    cases rest with
    | nil =>
      right
      exact ⟨x, List.mem_cons_self _ _, by simpa [List.intercalate] using hc⟩
    | cons y zs =>
      have hsplit : List.intercalate sep (x :: y :: zs) =
          x ++ (sep ++ List.intercalate sep (y :: zs)) := by
        simp [List.intercalate]
      rw [hsplit] at hc
      rcases List.mem_append.mp hc with h | h
      · exact Or.inr ⟨x, List.mem_cons_self _ _, h⟩
      · rcases List.mem_append.mp h with h | h
        · exact Or.inl h
        · rcases ih c h with h | ⟨l, hl, hcl⟩
          · exact Or.inl h
          · exact Or.inr ⟨l, List.mem_cons_of_mem _ hl, hcl⟩

theorem stages_of_intercalate (stages : List CStr) (hK : stages ≠ [])
    (hne : ∀ s ∈ stages, s ≠ []) (hbar : ∀ s ∈ stages, '|' ∉ s) :
    stages_of (List.intercalate ['|'] stages) = stages := by
  unfold stages_of fields
  rw [List.splitOn_intercalate stages '|' hbar hK]
  exact List.filter_eq_self.mpr (fun s hs => by simpa using hne s hs)

theorem intercalate_ne_nil (stages : List CStr) (hK : stages ≠ [])
    (hne : ∀ s ∈ stages, s ≠ []) (hbar : ∀ s ∈ stages, '|' ∉ s) :
    List.intercalate ['|'] stages ≠ [] := by
  intro h
  have := stages_of_intercalate stages hK hne hbar
  rw [h] at this
  exact hK (this.symm.trans (fields_nil '|'))

theorem chomp_line (body term : CStr) (hnl : '\n' ∉ body) (hterm : term = [] ∨ term = ['\n']) :
    chomp (body ++ term) = body := by
  rcases hterm with h | h
  · subst h
    rw [List.append_nil]
    unfold chomp
    rw [if_neg]
    intro hl
    exact hnl (List.mem_of_getLast?_eq_some hl)
  · subst h
    unfold chomp
    simp

theorem parse_command_stages (stages : List CStr) (term : CStr)
    (hK : stages ≠ []) (hmax : stages.length ≤ MAX_CMDS - 1)
    (hne : ∀ s ∈ stages, s ≠ []) (hbar : ∀ s ∈ stages, '|' ∉ s)
    (hnl : ∀ s ∈ stages, '\n' ∉ s) (hterm : term = [] ∨ term = ['\n'])
    (hfg : (List.intercalate ['|'] stages).getLast? ≠ some '&') :
    parse_command (List.intercalate ['|'] stages ++ term) 0 =
      some { line := List.intercalate ['|'] stages, commands := stages, background := 0 } := by
  have hbody : '\n' ∉ List.intercalate ['|'] stages := by
    intro h
    rcases mem_intercalate ['|'] stages '\n' h with h | ⟨l, hl, hc⟩
    · simp at h
    · exact hnl l hl hc
  have hch := chomp_line _ term hbody hterm
  have hnn := intercalate_ne_nil stages hK hne hbar
  rw [parse_command_eq _ 0 (by rw [hch]; exact hnn), hch, if_neg hfg,
    stages_of_intercalate stages hK hne hbar, List.take_of_length_le hmax]

/-- C2, for lines that are not taken for the `jobs` built-in: a foreground
line made of `K` non-empty stages without `|`, joined by `|`, with `K` between
1 and the maximum stage count and all `pipe` and `fork` calls succeeding,
makes `execute_command` fork exactly `K` times, once per stage in stage
order, and call `wait` exactly `K` times before it returns. -/
theorem execute_command_forks_waits (sys : Sys) (stages : List CStr) (term : CStr)
    (t : FdTable) (jobs : List job)
    (hK : stages ≠ []) (hmax : stages.length ≤ MAX_CMDS - 1)
    (hne : ∀ s ∈ stages, s ≠ []) (hbar : ∀ s ∈ stages, '|' ∉ s)
    (hnl : ∀ s ∈ stages, '\n' ∉ s) (hterm : term = [] ∨ term = ['\n'])
    (hfg : (List.intercalate ['|'] stages).getLast? ≠ some '&')
    (hjobs : (List.intercalate ['|'] stages ++ term).take 4 ≠ ['j', 'o', 'b', 's'])
    (hpipe : ∀ i, sys.pipe_ok i = true) (hfork : ∀ i, (sys.fork_pid i).isSome = true) :
    ∃ r, execute_command sys (List.intercalate ['|'] stages ++ term) t jobs = some r ∧
      fork_calls r.trace = stages.length ∧
      spawned r.trace = stages.enum ∧
      wait_calls r.trace = stages.length := by
  have hp := parse_command_stages stages term hK hmax hne hbar hnl hterm hfg
  obtain ⟨r, hr, h1, h2, _, h4, _⟩ :=
    execute_command_ok sys _ t jobs _ hjobs hp hK hpipe hfork
  exact ⟨r, hr, h1, h2, by simpa using h4⟩

theorem execute_command_forks_waits_witness :
    ∃ r, execute_command sys_ok
        (List.intercalate ['|'] ["ls -l ".toList, " sort ".toList, " wc".toList] ++ ['\n'])
        std_fds [] = some r ∧
      fork_calls r.trace = 3 ∧
      spawned r.trace = ["ls -l ".toList, " sort ".toList, " wc".toList].enum ∧
      wait_calls r.trace = 3 :=
  execute_command_forks_waits sys_ok ["ls -l ".toList, " sort ".toList, " wc".toList] ['\n']
    std_fds [] (by decide) (by decide) (by decide) (by decide) (by decide) (by decide)
    (by decide) (by decide) (fun _ => rfl) (fun _ => rfl)

/-- C2 as stated fails on the line `jobs`: it is one non-empty stage, and
`execute_command` prints the job table without any `fork` or `wait`. -/
theorem execute_command_forks_waits_counterexample :
    List.intercalate ['|'] ["jobs".toList] ++ ['\n'] = "jobs\n".toList ∧
    execute_command sys_ok "jobs\n".toList std_fds [] =
      some { trace := [Event.print_jobs []], fds := std_fds, job_list := [] } ∧
    fork_calls [Event.print_jobs []] = 0 ∧ wait_calls [Event.print_jobs []] = 0 := by
  decide

/-! ## More stages than `commands` has room for -/

theorem parse_command_commands (cmdline : CStr) (bg : Int) (p : Parsed)
    (hp : parse_command cmdline bg = some p) :
    p.commands = (stages_of p.line).take (MAX_CMDS - 1) := by
  unfold parse_command at hp
  cases h1 : strip_newline cmdline with
  | none => simp [h1] at hp
  | some l1 =>
    simp only [h1] at hp
    cases h2 : strip_background l1 bg with
    | none => simp [h2] at hp
    | some lb =>
      obtain ⟨l2, b⟩ := lb
      simp only [h2, Option.some.injEq] at hp
      subst hp
      exact token_loop_eq_fields '|' l2 (MAX_CMDS - 1)

theorem stages_beyond_room (sys : Sys) (cmdline : CStr) (t : FdTable) (jobs : List job)
    (p : Parsed) (hp : parse_command cmdline 0 = some p)
    (hmany : MAX_CMDS - 1 < (stages_of p.line).length) :
    p.commands = (stages_of p.line).take (MAX_CMDS - 1) ∧
    p.commands.length = MAX_CMDS - 1 ∧
    (cmdline.take 4 ≠ ['j', 'o', 'b', 's'] → (∀ i, sys.pipe_ok i = true) →
      (∀ i, (sys.fork_pid i).isSome = true) →
      ∃ r, execute_command sys cmdline t jobs = some r ∧
        fork_calls r.trace = MAX_CMDS - 1 ∧
        spawned r.trace = ((stages_of p.line).take (MAX_CMDS - 1)).enum ∧
        perror_calls r.trace = 0) := by
  have hc := parse_command_commands cmdline 0 p hp
  have hl : p.commands.length = MAX_CMDS - 1 := by
    rw [hc, List.length_take]; omega
  refine ⟨hc, hl, fun hjobs hpipe hfork => ?_⟩
  have hne : p.commands ≠ [] := by
    intro h
    rw [h] at hl
    exact absurd hl (by decide)
  obtain ⟨r, hr, h1, h2, _, _, h5, _⟩ :=
    execute_command_ok sys cmdline t jobs p hjobs hp hne hpipe hfork
  exact ⟨r, hr, h1.trans hl, by rw [h2, hc], h5⟩

/-- C7, as the code has it: when the text that is split holds more than
`MAX_CMDS - 1 = 63` non-empty stages, `parse_command` reports nothing and
keeps exactly the first 63 of them; unless the line is taken for the `jobs`
built-in, `execute_command` then spawns a child for each of these 63 stages
(all `pipe` and `fork` calls succeeding) and no `perror` is issued. -/
theorem parse_command_truncates (sys : Sys) (cmdline : CStr) (t : FdTable) (jobs : List job)
    (p : Parsed) (hp : parse_command cmdline 0 = some p)
    (hmany : MAX_CMDS - 1 < (stages_of p.line).length) :
    p.commands = (stages_of p.line).take (MAX_CMDS - 1) ∧
    p.commands.length = MAX_CMDS - 1 ∧
    (cmdline.take 4 ≠ ['j', 'o', 'b', 's'] → (∀ i, sys.pipe_ok i = true) →
      (∀ i, (sys.fork_pid i).isSome = true) →
      ∃ r, execute_command sys cmdline t jobs = some r ∧
        fork_calls r.trace = MAX_CMDS - 1 ∧
        spawned r.trace = ((stages_of p.line).take (MAX_CMDS - 1)).enum ∧
        perror_calls r.trace = 0) :=
  stages_beyond_room sys cmdline t jobs p hp hmany

theorem parse_command_truncates_witness :
    parse_command (List.intercalate ['|'] (List.replicate 64 ['a']) ++ ['\n']) 0 =
      some { line := List.intercalate ['|'] (List.replicate 64 ['a']),
             commands := List.replicate 63 ['a'], background := 0 } ∧
    MAX_CMDS - 1 < (stages_of (List.intercalate ['|'] (List.replicate 64 ['a']))).length ∧
    ∃ r, execute_command sys_ok (List.intercalate ['|'] (List.replicate 64 ['a']) ++ ['\n'])
        std_fds [] = some r ∧
      fork_calls r.trace = MAX_CMDS - 1 ∧
      spawned r.trace =
        ((stages_of (List.intercalate ['|'] (List.replicate 64 ['a']))).take
          (MAX_CMDS - 1)).enum ∧
      perror_calls r.trace = 0 :=
  ⟨by decide, by decide,
   (parse_command_truncates sys_ok (List.intercalate ['|'] (List.replicate 64 ['a']) ++ ['\n'])
      std_fds []
      { line := List.intercalate ['|'] (List.replicate 64 ['a']),
        commands := List.replicate 63 ['a'], background := 0 }
      (by decide) (by decide)).2.2 (by decide) (fun _ => rfl) (fun _ => rfl)⟩

/-- C7 as stated fails on a line of 64 stages `a|a|...|a`: no error is
reported and 63 children are spawned. -/
theorem too_many_stages_counterexample :
    (stages_of (List.intercalate ['|'] (List.replicate 64 ['a']))).length = 64 ∧
    ∃ r, execute_command sys_ok (List.intercalate ['|'] (List.replicate 64 ['a']) ++ ['\n'])
        std_fds [] = some r ∧
      fork_calls r.trace = 63 ∧ perror_calls r.trace = 0 := by
  refine ⟨by decide, ?_⟩
  obtain ⟨_, _, h⟩ := stages_beyond_room sys_ok
    (List.intercalate ['|'] (List.replicate 64 ['a']) ++ ['\n']) std_fds []
    { line := List.intercalate ['|'] (List.replicate 64 ['a']),
      commands := List.replicate 63 ['a'], background := 0 }
    (by decide) (by decide)
  obtain ⟨r, hr, h1, _, h3⟩ := h (by decide) (fun _ => rfl) (fun _ => rfl)
  exact ⟨r, hr, h1, h3⟩

/-! ## The child branch: proofs -/

theorem scan_input_found (pre : List CStr) (rest : List (Option CStr)) (hpre : ['<'] ∉ pre) :
    ∀ j, scan_input (pre.map some ++ some ['<'] :: rest) j = some (j + pre.length) := by
  induction pre with
  | nil => intro j; simp [scan_input]
  | cons a pre ih =>
    intro j
    have ha : a ≠ ['<'] := fun h => hpre (by rw [h]; exact List.mem_cons_self _ _)
    have hp : ['<'] ∉ pre := fun h => hpre (List.mem_cons_of_mem _ h)
    rw [List.map_cons, List.cons_append, scan_input, if_neg ha, ih hp (j + 1), List.length_cons]
    congr 1
    omega

theorem scan_output_found (pre : List CStr) (rest : List (Option CStr)) (op : CStr)
    (hop : op = ['>'] ∨ op = ['>', '>'])
    (hpre : ['>'] ∉ pre) (hpre2 : ['>', '>'] ∉ pre) :
    ∀ j, scan_output (pre.map some ++ some op :: rest) j =
      some (j + pre.length, if op = ['>'] then OpenMode.wr_trunc else OpenMode.wr_append) := by
  induction pre with
  | nil =>
    intro j
    rcases hop with h | h
    · subst h; simp [scan_output]
    · subst h; simp [scan_output]
  | cons a pre ih =>
    intro j
    have ha : a ≠ ['>'] := fun h => hpre (by rw [h]; exact List.mem_cons_self _ _)
    have ha2 : a ≠ ['>', '>'] := fun h => hpre2 (by rw [h]; exact List.mem_cons_self _ _)
    have hp : ['>'] ∉ pre := fun h => hpre (List.mem_cons_of_mem _ h)
    have hp2 : ['>', '>'] ∉ pre := fun h => hpre2 (List.mem_cons_of_mem _ h)
    rw [List.map_cons, List.cons_append, scan_output, if_neg ha, if_neg ha2, ih hp hp2 (j + 1),
      List.length_cons]
    congr 2
    omega

theorem operand_at (pre : List CStr) (op : Option CStr) (path : CStr) (post : List (Option CStr)) :
    (pre.map some ++ op :: some path :: post).getD (0 + pre.length + 1) none = some path := by
  simp only [List.getD_eq_getElem?_getD]
  rw [List.getElem?_append_right (by simp)]
  simp

theorem redirect_inv (sys : Sys) (argv : List (Option CStr)) (t : FdTable) (pipefds : List Nat)
    (n j : Nat) (mode : OpenMode) (target : Nat) (path : CStr)
    (hinv : PipesInv t pipefds n) (htarget : target < 2)
    (hpath : argv.getD (j + 1) none = some path) (hok : sys.open_ok path mode = true) :
    ∃ t1, redirect sys argv t j mode target = some (argv.set j none, t1) ∧
      fd_lookup t1 target = some (OpenFile.file path mode) ∧
      PipesInv t1 pipefds n := by
  obtain ⟨hlen, hpipes, hge, h0, h1⟩ := hinv
  have hfresh := lowest_free_fresh t
  have htopen : (fd_lookup t target).isSome = true := by
    have : target = 0 ∨ target = 1 := by omega
    rcases this with h | h
    · rw [h]; exact h0
    · rw [h]; exact h1
  have hft : target ≠ lowest_free t := ne_of_lookup htopen hfresh
  have hlk : ∀ x, fd_lookup
      (fd_close (fd_dup2 ((lowest_free t, OpenFile.file path mode) :: t) (lowest_free t) target)
        (lowest_free t)) x =
      if x = lowest_free t then none
      else if x = target then some (OpenFile.file path mode) else fd_lookup t x := by
    intro x
    rw [fd_lookup_close, fd_lookup_dup2 _ _ _ (OpenFile.file path mode)
      (by rw [fd_lookup_cons, if_pos rfl]), fd_lookup_cons]
    by_cases hx : x = lowest_free t
    · simp [hx]
    · have : ¬ lowest_free t = x := fun h => hx h.symm
      simp [hx, this]
  have keep : ∀ x, x ≠ target → (fd_lookup t x).isSome = true →
      fd_lookup
        (fd_close (fd_dup2 ((lowest_free t, OpenFile.file path mode) :: t) (lowest_free t) target)
          (lowest_free t)) x = fd_lookup t x := by
    intro x hxt hx
    rw [hlk, if_neg (ne_of_lookup hx hfresh), if_neg hxt]
  have hnew : fd_lookup
      (fd_close (fd_dup2 ((lowest_free t, OpenFile.file path mode) :: t) (lowest_free t) target)
        (lowest_free t)) target = some (OpenFile.file path mode) := by
    rw [hlk, if_neg hft, if_pos rfl]
  have hstd : ∀ x, x < 2 → (fd_lookup t x).isSome = true →
      (fd_lookup
        (fd_close (fd_dup2 ((lowest_free t, OpenFile.file path mode) :: t) (lowest_free t) target)
          (lowest_free t)) x).isSome = true := by
    intro x _ hx
    by_cases hxt : x = target
    · rw [hxt, hnew]; rfl
    · rw [keep x hxt hx]; exact hx
  refine ⟨_, ?_, hnew, hlen, ?_, hge, hstd 0 (by omega) h0, hstd 1 (by omega) h1⟩
  · simp only [redirect, sys_open, hpath, hok, if_true]
  · intro k hk
    obtain ⟨hr, hw⟩ := hpipes k hk
    have hrs : (fd_lookup t (pipefds.getD (2 * k) 0)).isSome = true := by rw [hr]; rfl
    have hws : (fd_lookup t (pipefds.getD (2 * k + 1) 0)).isSome = true := by rw [hw]; rfl
    have hrm : pipefds.getD (2 * k) 0 ∈ pipefds := by
      simp only [List.getD_eq_getElem?_getD]
      rw [List.getElem?_eq_getElem (by omega)]
      exact List.getElem_mem _
    have hwm : pipefds.getD (2 * k + 1) 0 ∈ pipefds := by
      simp only [List.getD_eq_getElem?_getD]
      rw [List.getElem?_eq_getElem (by omega)]
      exact List.getElem_mem _
    have hr2 := hge _ hrm
    have hw2 := hge _ hwm
    rw [keep _ (by omega) hrs, keep _ (by omega) hws]
    exact ⟨hr, hw⟩

/-- What the pipe wiring and the closing loop of the child leave on
descriptors 0 and 1. -/
theorem wire_lookup (i num_cmds : Nat) (pipefds : List Nat) (t2 : FdTable)
    (hinv : PipesInv t2 pipefds (num_cmds - 1)) (hi : i < num_cmds) :
    fd_lookup
      (pipefds.foldl fd_close
        (if i < num_cmds - 1 then
          fd_dup2 (if 0 < i then fd_dup2 t2 (pipefds.getD ((i - 1) * 2) 0) 0 else t2)
            (pipefds.getD (i * 2 + 1) 0) 1
         else (if 0 < i then fd_dup2 t2 (pipefds.getD ((i - 1) * 2) 0) 0 else t2))) 0 =
      (if 0 < i then some (OpenFile.pipe_read (i - 1)) else fd_lookup t2 0) ∧
    fd_lookup
      (pipefds.foldl fd_close
        (if i < num_cmds - 1 then
          fd_dup2 (if 0 < i then fd_dup2 t2 (pipefds.getD ((i - 1) * 2) 0) 0 else t2)
            (pipefds.getD (i * 2 + 1) 0) 1
         else (if 0 < i then fd_dup2 t2 (pipefds.getD ((i - 1) * 2) 0) 0 else t2))) 1 =
      (if i < num_cmds - 1 then some (OpenFile.pipe_write i) else fd_lookup t2 1) := by
  obtain ⟨hlen, hpipes, hge, h0, h1⟩ := hinv
  have hn0 : (0 : Nat) ∉ pipefds := fun h => absurd (hge 0 h) (by omega)
  have hn1 : (1 : Nat) ∉ pipefds := fun h => absurd (hge 1 h) (by omega)
  rw [fd_lookup_close_all, if_neg hn0, fd_lookup_close_all, if_neg hn1]
  -- the table after the first `dup2`
  have h3 : ∀ x, fd_lookup (if 0 < i then fd_dup2 t2 (pipefds.getD ((i - 1) * 2) 0) 0 else t2) x =
      if 0 < i ∧ x = 0 then some (OpenFile.pipe_read (i - 1)) else fd_lookup t2 x := by
    intro x
    by_cases hi0 : 0 < i
    · have hr := (hpipes (i - 1) (by omega)).1
      rw [Nat.mul_comm] at hr
      rw [if_pos hi0, fd_lookup_dup2 _ _ _ _ hr]
      simp [hi0]
    · simp [hi0]
  by_cases hil : i < num_cmds - 1
  · have hw := (hpipes i hil).2
    rw [Nat.mul_comm] at hw
    have hwm : pipefds.getD (i * 2 + 1) 0 ∈ pipefds := by
      simp only [List.getD_eq_getElem?_getD]
      rw [List.getElem?_eq_getElem (by omega)]
      exact List.getElem_mem _
    have hw2 := hge _ hwm
    have hw3 : fd_lookup (if 0 < i then fd_dup2 t2 (pipefds.getD ((i - 1) * 2) 0) 0 else t2)
        (pipefds.getD (i * 2 + 1) 0) = some (OpenFile.pipe_write i) := by
      rw [h3, if_neg (by omega), hw]
    rw [if_pos hil, fd_lookup_dup2 _ _ _ _ hw3, fd_lookup_dup2 _ _ _ _ hw3, h3]
    simp [hil]
  · rw [if_neg hil, h3, h3]
    simp [hil]

theorem child_first (sys : Sys) (num_cmds : Nat) (pipefds : List Nat) (t : FdTable)
    (pre : List CStr) (infile : CStr) (post : List (Option CStr))
    (hinv : PipesInv t pipefds (num_cmds - 1)) (hN : 2 ≤ num_cmds)
    (hpre : ['<'] ∉ pre) (hopen : sys.open_ok infile OpenMode.rdonly = true) :
    child_fd (child sys 0 num_cmds pipefds
        (pre.map some ++ some ['<'] :: some infile :: post) t) 0 =
      some (OpenFile.file infile OpenMode.rdonly) ∧
    child_fd (child sys 0 num_cmds pipefds
        (pre.map some ++ some ['<'] :: some infile :: post) t) 1 =
      some (OpenFile.pipe_write 0) := by
  obtain ⟨t1, hred, hnew, hinv1⟩ := redirect_inv sys
    (pre.map some ++ some ['<'] :: some infile :: post) t pipefds (num_cmds - 1)
    (0 + pre.length) OpenMode.rdonly 0 infile hinv (by omega)
    (operand_at pre (some ['<']) infile post) hopen
  have hlast : ¬ (0 = num_cmds - 1) := by omega
  obtain ⟨w0, w1⟩ := wire_lookup 0 num_cmds pipefds t1 hinv1 (by omega)
  have hlt : 0 < num_cmds - 1 := by omega
  unfold child
  simp only [if_true, scan_input_found pre _ hpre 0, hred, hlast, if_false, child_fd]
  refine ⟨w0.trans ?_, w1.trans ?_⟩
  · rw [if_neg (Nat.lt_irrefl 0), hnew]
  · rw [if_pos hlt]

theorem child_middle (sys : Sys) (i num_cmds : Nat) (pipefds : List Nat) (t : FdTable)
    (argv : List (Option CStr))
    (hinv : PipesInv t pipefds (num_cmds - 1)) (hi0 : 0 < i) (hi : i < num_cmds - 1) :
    child_fd (child sys i num_cmds pipefds argv t) 0 = some (OpenFile.pipe_read (i - 1)) ∧
    child_fd (child sys i num_cmds pipefds argv t) 1 = some (OpenFile.pipe_write i) := by
  have hfirst : ¬ (i = 0) := by omega
  have hlast : ¬ (i = num_cmds - 1) := by omega
  obtain ⟨w0, w1⟩ := wire_lookup i num_cmds pipefds t hinv (by omega)
  unfold child
  simp only [hfirst, hlast, if_false, child_fd]
  refine ⟨w0.trans ?_, w1.trans ?_⟩
  · rw [if_pos hi0]
  · rw [if_pos hi]

theorem child_last (sys : Sys) (num_cmds : Nat) (pipefds : List Nat) (t : FdTable)
    (pre : List CStr) (op outfile : CStr) (post : List (Option CStr))
    (hinv : PipesInv t pipefds (num_cmds - 1)) (hN : 2 ≤ num_cmds)
    (hop : op = ['>'] ∨ op = ['>', '>'])
    (hpre : ['>'] ∉ pre) (hpre2 : ['>', '>'] ∉ pre)
    (hopen : ∀ mode, sys.open_ok outfile mode = true) :
    child_fd (child sys (num_cmds - 1) num_cmds pipefds
        (pre.map some ++ some op :: some outfile :: post) t) 0 =
      some (OpenFile.pipe_read (num_cmds - 2)) ∧
    child_fd (child sys (num_cmds - 1) num_cmds pipefds
        (pre.map some ++ some op :: some outfile :: post) t) 1 =
      some (OpenFile.file outfile
        (if op = ['>'] then OpenMode.wr_trunc else OpenMode.wr_append)) := by
  obtain ⟨t1, hred, hnew, hinv1⟩ := redirect_inv sys
    (pre.map some ++ some op :: some outfile :: post) t pipefds (num_cmds - 1)
    (0 + pre.length) (if op = ['>'] then OpenMode.wr_trunc else OpenMode.wr_append) 1 outfile
    hinv (by omega) (operand_at pre (some op) outfile post) (hopen _)
  have hfirst : ¬ (num_cmds - 1 = 0) := by omega
  obtain ⟨w0, w1⟩ := wire_lookup (num_cmds - 1) num_cmds pipefds t1 hinv1 (by omega)
  have hlt : 0 < num_cmds - 1 := by omega
  unfold child
  simp only [hfirst, if_false, if_true, scan_output_found pre _ op hop hpre hpre2 0, hred,
    child_fd]
  refine ⟨w0.trans ?_, w1.trans ?_⟩
  · rw [if_pos hlt]
    rfl
  · rw [if_neg (Nat.lt_irrefl _), hnew]

theorem stage_fd_eq (tr : List Event) (cmds : List CStr) (g : Nat × CStr → ChildEnd)
    (h : children tr = cmds.enum.map g) (i fd : Nat) (c : CStr) (hc : cmds[i]? = some c) :
    stage_fd tr i fd = child_fd (g (i, c)) fd := by
  unfold stage_fd
  rw [h, List.getElem?_map, List.getElem?_enum, hc]
  rfl

/-- C3, as the code has it: for a command line that is not taken for the
`jobs` built-in and that `parse_command` splits into `N ≥ 2` stages (at most
63, later ones are dropped), run by a shell in which descriptors 0 and 1 are
open, where the first `<` of the first stage's `argv` is followed by `infile`
and the first output operator of the last stage's `argv` is `>` followed by
`outfile`, with every `pipe`, `fork` and `open` succeeding: when the children
call `execvp`, stage 0 reads from `infile`, stage `N - 1` writes to `outfile`
(opened for writing with create and truncate), and at every boundary `i`
stage `i` writes to the write end of pipe `i` and stage `i + 1` reads from its
read end. -/
theorem pipeline_wiring (sys : Sys) (cmdline : CStr) (t : FdTable) (jobs : List job)
    (p : Parsed) (first last : CStr) (middle : List CStr)
    (pre pre2 : List CStr) (infile outfile : CStr) (post post2 : List (Option CStr))
    (hjobs : cmdline.take 4 ≠ ['j', 'o', 'b', 's'])
    (hp : parse_command cmdline 0 = some p)
    (hcmds : p.commands = first :: (middle ++ [last]))
    (h0 : (fd_lookup t 0).isSome = true) (h1 : (fd_lookup t 1).isSome = true)
    (hpipe : ∀ i, sys.pipe_ok i = true) (hfork : ∀ i, (sys.fork_pid i).isSome = true)
    (hopen : ∀ path mode, sys.open_ok path mode = true)
    (hin : parse_args first = pre.map some ++ some ['<'] :: some infile :: post)
    (hpre : ['<'] ∉ pre)
    (hout : parse_args last = pre2.map some ++ some ['>'] :: some outfile :: post2)
    (hpre2 : ['>'] ∉ pre2) (hpre3 : ['>', '>'] ∉ pre2) :
    ∃ r, execute_command sys cmdline t jobs = some r ∧
      (children r.trace).length = middle.length + 2 ∧
      stage_fd r.trace 0 0 = some (OpenFile.file infile OpenMode.rdonly) ∧
      stage_fd r.trace (middle.length + 1) 1 = some (OpenFile.file outfile OpenMode.wr_trunc) ∧
      ∀ i, i < middle.length + 1 →
        stage_fd r.trace i 1 = some (OpenFile.pipe_write i) ∧
        stage_fd r.trace (i + 1) 0 = some (OpenFile.pipe_read i) := by
  have hne : p.commands ≠ [] := by rw [hcmds]; exact List.cons_ne_nil _ _
  have hN : p.commands.length = middle.length + 2 := by rw [hcmds]; simp
  obtain ⟨r, hr, _, _, hch, _, _⟩ := execute_command_ok sys cmdline t jobs p hjobs hp hne hpipe hfork
  obtain ⟨_, _, hinv⟩ := pipe_loop_ok sys hpipe (p.commands.length - 1) 0 t []
  have hinv := hinv (PipesInv_init t h0 h1)
  rw [Nat.zero_add] at hinv
  generalize (pipe_loop sys (p.commands.length - 1) 0 t []).pipefds = pf at hch hinv
  generalize (pipe_loop sys (p.commands.length - 1) 0 t []).fds = tf at hch hinv
  have hfirst : p.commands[0]? = some first := by rw [hcmds]; simp
  have hlast : p.commands[middle.length + 1]? = some last := by
    rw [hcmds, List.getElem?_cons_succ, List.getElem?_append_right (Nat.le_refl _)]
    simp
  have cf := child_first sys p.commands.length pf tf pre infile post hinv (by omega) hpre
    (hopen _ _)
  have cl := child_last sys p.commands.length pf tf pre2 ['>'] outfile post2 hinv (by omega)
    (Or.inl rfl) hpre2 hpre3 (hopen _)
  rw [← hin] at cf
  rw [← hout, if_pos rfl, show p.commands.length - 1 = middle.length + 1 by omega,
    show p.commands.length - 2 = middle.length by omega] at cl
  have sf := fun fd => stage_fd_eq r.trace p.commands _ hch 0 fd first hfirst
  have sl := fun fd => stage_fd_eq r.trace p.commands _ hch (middle.length + 1) fd last hlast
  have smid : ∀ i, 0 < i → i < middle.length + 1 →
      stage_fd r.trace i 0 = some (OpenFile.pipe_read (i - 1)) ∧
      stage_fd r.trace i 1 = some (OpenFile.pipe_write i) := by
    intro i hi0 hi
    obtain ⟨c, hc⟩ : ∃ c, p.commands[i]? = some c := by
      rw [List.getElem?_eq_getElem (by omega)]; exact ⟨_, rfl⟩
    rw [stage_fd_eq r.trace p.commands _ hch i 0 c hc, stage_fd_eq r.trace p.commands _ hch i 1 c hc]
    exact child_middle sys i p.commands.length pf tf _ hinv hi0 (by omega)
  refine ⟨r, hr, ?_, ?_, ?_, ?_⟩
  · rw [hch, List.length_map, List.enum_length, hN]
  · rw [sf 0]; exact cf.1
  · rw [sl 1]; exact cl.2
  · intro i hi
    constructor
    · by_cases hi0 : i = 0
      · subst hi0; rw [sf 1]; exact cf.2
      · exact (smid i (by omega) hi).2
    · by_cases hil : i + 1 = middle.length + 1
      · rw [hil, sl 0]
        have : i = middle.length := by omega
        rw [this]; exact cl.1
      · exact (smid (i + 1) (by omega) (by omega)).1

theorem pipeline_wiring_witness :
    ∃ r, execute_command sys_ok "cat -n < in | sort | wc > out\n".toList std_fds [] = some r ∧
      (children r.trace).length = [" sort ".toList].length + 2 ∧
      stage_fd r.trace 0 0 = some (OpenFile.file "in".toList OpenMode.rdonly) ∧
      stage_fd r.trace ([" sort ".toList].length + 1) 1 =
        some (OpenFile.file "out".toList OpenMode.wr_trunc) ∧
      ∀ i, i < [" sort ".toList].length + 1 →
        stage_fd r.trace i 1 = some (OpenFile.pipe_write i) ∧
        stage_fd r.trace (i + 1) 0 = some (OpenFile.pipe_read i) :=
  pipeline_wiring sys_ok "cat -n < in | sort | wc > out\n".toList std_fds []
    { line := "cat -n < in | sort | wc > out".toList,
      commands := ["cat -n < in ".toList, " sort ".toList, " wc > out".toList],
      background := 0 }
    "cat -n < in ".toList " wc > out".toList [" sort ".toList]
    ["cat".toList, "-n".toList] ["wc".toList] "in".toList "out".toList [none] [none]
    (by decide) (by decide) (by decide) (by decide) (by decide) (fun _ => rfl) (fun _ => rfl)
    (fun _ _ => rfl) (by decide) (by decide) (by decide) (by decide) (by decide)

/-- C3 as stated fails in two ways.  On a line of 64 stages whose first
stage is `a < in` and whose last stage is `c > out`, the parser keeps 63
stages: 63 children are spawned, there is no stage 63, `out` is never opened
and stage 62 calls `execvp` with the standard output of the shell.  On
`cat < in | wc > out` run by a shell whose descriptor 1 is closed, `pipe`
hands out descriptor 1 for the read end: stage 0 calls `execvp` with
descriptor 1 closed instead of the write end of pipe 0, and stage 1 with
`out` on descriptor 0 and descriptor 1 closed. -/
theorem pipeline_wiring_counterexample :
    (stages_of (List.intercalate ['|']
        ("a < in".toList :: (List.replicate 62 ['b'] ++ ["c > out".toList]))) =
      "a < in".toList :: (List.replicate 62 ['b'] ++ ["c > out".toList]) ∧
     (execute_command sys_ok
        (List.intercalate ['|']
          ("a < in".toList :: (List.replicate 62 ['b'] ++ ["c > out".toList])) ++ ['\n'])
        std_fds []).map
      (fun r => ((children r.trace).length, stage_fd r.trace 63 1, stage_fd r.trace 62 1)) =
      some (63, none, some (OpenFile.inherited 1))) ∧
    (execute_command sys_ok "cat < in | wc > out\n".toList
        [(0, OpenFile.inherited 0), (2, OpenFile.inherited 2)] []).map
      (fun r => (stage_fd r.trace 0 1, stage_fd r.trace 1 0, stage_fd r.trace 1 1)) =
      some (none, some (OpenFile.file "out".toList OpenMode.wr_trunc), none) := by
  decide

/-! ## Where the code departs from its contract -/

/-- C4 at `cat < in > out`: the stage's tokens hold `>` followed by `out`, the
only stage is first and last at once, and its child calls `execvp` with the
standard output it inherited; `out` is never opened.  The input scan has put
`NULL` over the `<`, and the output scan stops at the first `NULL`.  With the
operators in the other order, `cat > out < in`, the file is opened. -/
theorem output_redirect_lost :
    parse_args "cat < in > out".toList =
      [some "cat".toList, some ['<'], some "in".toList, some ['>'], some "out".toList, none] ∧
    (execute_command sys_ok "cat < in > out\n".toList std_fds []).map (fun r => children r.trace) =
      some [ChildEnd.exec ["cat".toList]
        [(0, OpenFile.file "in".toList OpenMode.rdonly), (1, OpenFile.inherited 1),
         (2, OpenFile.inherited 2)]] ∧
    (execute_command sys_ok "cat < in > out\n".toList std_fds []).bind
      (fun r => stage_fd r.trace 0 1) = some (OpenFile.inherited 1) ∧
    (execute_command sys_ok "cat > out < in\n".toList std_fds []).bind
      (fun r => stage_fd r.trace 0 1) = some (OpenFile.file "out".toList OpenMode.wr_trunc) := by
  decide

/-- C5 at `a|b` with the first `fork` failing, and at `a|b|c` with the second
`pipe` call failing: `execute_command` returns with both ends of pipe 0 still
open in the parent, and its trace holds no `close`. -/
theorem pipes_leak_on_failure :
    execute_command (sys_fork_fails_at 0) "a|b\n".toList std_fds [] =
      some { trace := [Event.pipe 0 3 4, Event.fork_failed 0, Event.perror Diag.fork],
             fds := (4, OpenFile.pipe_write 0) :: (3, OpenFile.pipe_read 0) :: std_fds,
             job_list := [] } ∧
    execute_command (sys_pipe_fails_at 1) "a|b|c\n".toList std_fds [] =
      some { trace := [Event.pipe 0 3 4, Event.pipe_failed 1, Event.perror Diag.pipe],
             fds := (4, OpenFile.pipe_write 0) :: (3, OpenFile.pipe_read 0) :: std_fds,
             job_list := [] } := by
  decide

/-- C6 at `a|b` with the first `fork` succeeding and the second failing: one
child was spawned, and `execute_command` returns without a single `wait`. -/
theorem no_wait_after_failed_fork :
    (execute_command (sys_fork_fails_at 1) "a|b\n".toList std_fds []).map
      (fun r => (spawned r.trace, fork_calls r.trace, wait_calls r.trace)) =
      some ([(0, ['a'])], 2, 0) := by
  decide

/-- C9 at `jobserver --start`: the line is not the keyword `jobs`, it only
begins with these four characters, and `execute_command` prints the job table
and spawns nothing. -/
theorem jobs_start_taken_for_builtin :
    chomp "jobserver --start\n".toList ≠ "jobs".toList ∧
    execute_command sys_ok "jobserver --start\n".toList std_fds [⟨41, "sleep 9 &\n".toList⟩] =
      some { trace := [Event.print_jobs [(41, "sleep 9 &\n".toList)]], fds := std_fds,
             job_list := [⟨41, "sleep 9 &\n".toList⟩] } := by
  decide

end Nsh
